import Mathlib

/-!
Verification development for the WebAgentAA task-execution orchestrator
(src/task_runner_utils.py together with the configuration surface of
src/config.py).

Text is modelled as `List Char` (`Str` below).  Python's ambient `config`
module is modelled as an explicit `Config` record carrying exactly the
attributes read by `task_runner_utils.py`; the external browser-automation
session, the clock and the step history are modelled as an explicit
environment record (`Env`), so that exceptions raised by external calls
become `Except` values.  Modelling notes:

* Python `str.replace` (all non-overlapping occurrences, left to right,
  replacement text not rescanned) is `replaceAll`.
* The two `re.sub` calls of `mask_sensitive_data` are implemented as
  deterministic left-to-right scanners (`sub3`, `sub4`); both regexes are
  backtracking-free because each sub-pattern's character class is disjoint
  from the character that must follow it, so the greedy scan is exact.
* `\w` and `\s` are modelled over ASCII; the timestamps and the formatted
  duration are opaque strings supplied by the environment.
-/

/-- Text, as a list of characters (Python `str`). -/
abbrev Str := List Char

/-- Does `h` start with `n`? (Python `str.startswith`). -/
def startsWith : Str → Str → Bool
  | [], _ => true
  | _ :: _, [] => false
  | c :: n, d :: h => c = d && startsWith n h

/-- Python's substring test `n in h`. -/
def hasSub (n : Str) : Str → Bool
  | [] => n.isEmpty
  | c :: t => startsWith n (c :: t) || hasSub n t

/-- One scan step of Python `str.replace old new`: `old` is assumed
non-empty by the callers (they test truthiness first); `fuel` bounds the
recursion by the length of the string. -/
def replaceGo (old new : Str) : Nat → Str → Str
  | _, [] => []
  | 0, s => s
  | fuel + 1, c :: t =>
      if startsWith old (c :: t) then
        new ++ replaceGo old new fuel ((c :: t).drop old.length)
      else
        c :: replaceGo old new fuel t

/-- Python `s.replace(old, new)` for non-empty `old`. -/
def replaceAll (old new s : Str) : Str :=
  if old.isEmpty then s else replaceGo old new s.length s

/-- ASCII lower-casing of one character (Python `str.lower`, restricted to
ASCII; every string compared against it in the source is ASCII). -/
def lowC (c : Char) : Char :=
  if 'A' ≤ c ∧ c ≤ 'Z' then Char.ofNat (c.toNat + 32) else c

/-- Python `str.lower` (ASCII model). -/
def pyLower (s : Str) : Str := s.map lowC

/-- Python regex `\s` (ASCII part). -/
def isWS (c : Char) : Bool :=
  c = ' ' || c = '\t' || c = '\n' || c = '\r' || c = '\x0b' || c = '\x0c'

/-- Python regex `\w` (ASCII part: letters, digits, underscore). -/
def isWordC (c : Char) : Bool := c.isAlphanum || c = '_'

/-- Character class `[\w-]` of the API-key regex. -/
def isWdash (c : Char) : Bool := isWordC c || c = '-'

/-- Consume an exact literal (case sensitive); returns the rest on success. -/
def eatLit : Str → Str → Option Str
  | [], s => some s
  | _ :: _, [] => none
  | c :: n, d :: s => if d = c then eatLit n s else none

/-- Consume an exact literal, ASCII case-insensitively (the pattern is given
in lower case); returns the rest on success. -/
def eatLitCI : Str → Str → Option Str
  | [], s => some s
  | _ :: _, [] => none
  | c :: n, d :: s => if lowC d = c then eatLitCI n s else none

/-- Greedily consume `\s*`. -/
def eatWS : Str → Str
  | [] => []
  | c :: t => if isWS c then eatWS t else c :: t

/-- Greedily consume `[^"]*`; returns the rest (which is either empty or
starts with `"`). -/
def eatNonQuotes : Str → Str
  | [] => []
  | c :: t => if c = '"' then c :: t else eatNonQuotes t

/-- Greedily consume `[\w-]*`, returning the number of characters consumed
and the rest. -/
def eatWdash : Str → Nat × Str
  | [] => (0, [])
  | c :: t =>
      if isWdash c then
        let p := eatWdash t
        (p.1 + 1, p.2)
      else (0, c :: t)

/-- The literal `"accessKey"` of the first regex. -/
def lit3 : Str := ("\"accessKey\"").data

/-- Head match of the regex `"accessKey"\s*:\s*"[^"]*"` from
`mask_sensitive_data` (src/task_runner_utils.py line 31); returns the rest
of the string after the match. -/
def match3 (s : Str) : Option Str :=
  match eatLit lit3 s with
  | none => none
  | some s1 =>
    match eatWS s1 with
    | ':' :: s3 =>
      match eatWS s3 with
      | '"' :: s5 =>
        match eatNonQuotes s5 with
        | '"' :: s7 => some s7
        | _ => none
      | _ => none
    | _ => none

/-- Replacement text `"accessKey": "***MASKED***"` of the first `re.sub`. -/
def repl3 : Str := ("\"accessKey\": \"***MASKED***\"").data

/-- `re.sub` scan for the accessKey pattern: leftmost, non-overlapping,
replacement not rescanned. -/
def sub3go : Nat → Str → Str
  | _, [] => []
  | 0, s => s
  | fuel + 1, c :: t =>
      match match3 (c :: t) with
      | some rest => repl3 ++ sub3go fuel rest
      | none => c :: sub3go fuel t

/-- `re.sub(r'"accessKey"\s*:\s*"[^"]*"', '"accessKey": "***MASKED***"', text)`. -/
def sub3 (s : Str) : Str := sub3go s.length s

/-- Head match of the key group `(api[_-]?key|apikey)` (case-insensitive).
The second alternative is subsumed by the first with the optional separator
absent, and the regex engine prefers the separator present.  Returns the
rest after the key; the captured text is recovered from the lengths. -/
def match4key (s : Str) : Option Str :=
  match eatLitCI ("api").data s with
  | none => none
  | some s1 =>
    match s1 with
    | c :: s2 =>
        if c = '_' || c = '-' then
          match eatLitCI ("key").data s2 with
          | some s3 => some s3
          | none => eatLitCI ("key").data s1
        else eatLitCI ("key").data s1
    | [] => none

/-- Head match of the full regex
`(api[_-]?key|apikey)\s*[:=]\s*["\']?[\w-]{20,}["\']?` (IGNORECASE), from
src/task_runner_utils.py line 34.  Returns `(captured key, rest)`.  The
scan is backtracking-free: whitespace, `[:=]`, quotes and `[\w-]` are
pairwise disjoint character classes, and if the optional opening quote is
taken and fewer than 20 word characters follow, the no-quote alternative
then fails immediately on the quote character itself. -/
def match4 (s : Str) : Option (Str × Str) :=
  match match4key s with
  | none => none
  | some sk =>
    let cap := s.take (s.length - sk.length)
    match eatWS sk with
    | c :: u2 =>
        if c = ':' || c = '=' then
          let u3 := eatWS u2
          let u4 := match u3 with
            | q :: r => if q = '"' || q = '\'' then r else u3
            | [] => []
          let p := eatWdash u4
          if 20 ≤ p.1 then
            let u6 := match p.2 with
              | q2 :: r2 => if q2 = '"' || q2 = '\'' then r2 else p.2
              | [] => []
            some (cap, u6)
          else none
        else none
    | [] => none

/-- The constant part `: ***MASKED***` of the API-key replacement. -/
def mid4 : Str := (": ***MASKED***").data

/-- Replacement `\1: ***MASKED***` of the API-key `re.sub`. -/
def repl4 (cap : Str) : Str := cap ++ mid4

/-- `re.sub` scan for the API-key pattern. -/
def sub4go : Nat → Str → Str
  | _, [] => []
  | 0, s => s
  | fuel + 1, c :: t =>
      match match4 (c :: t) with
      | some (cap, rest) => repl4 cap ++ sub4go fuel rest
      | none => c :: sub4go fuel t

/-- `re.sub(r'(api[_-]?key|apikey)\s*[:=]\s*["\']?[\w-]{20,}["\']?',
r'\1: ***MASKED***', text, flags=re.IGNORECASE)`. -/
def sub4 (s : Str) : Str := sub4go s.length s

/-- The configuration attributes of the `config` module that
src/task_runner_utils.py reads (the configuration surface of the core). -/
structure Config where
  USE_LAMBDATEST : Bool
  LT_USERNAME : Str
  LT_ACCESS_KEY : Str
  GOOGLE_API_KEY : Str
  HEADLESS_BROWSER : Bool
  MAX_PARALLEL_AGENTS : Nat
deriving DecidableEq

/-- Redaction token for the LambdaTest access key. -/
def tokAccessKey : Str := ("***MASKED_ACCESS_KEY***").data

/-- Redaction token for the Google API key. -/
def tokApiKey : Str := ("***MASKED_API_KEY***").data

/-- `mask_sensitive_data` (src/task_runner_utils.py lines 13-40).
Empty text is returned unchanged (`if not text`); then, in order: literal
replacement of the configured LambdaTest access key, the JSON accessKey
`re.sub`, the API-key `re.sub`, and the literal replacement of the
configured Google API key (which the source guards with `hasattr`; the
attribute is always present on the modelled configuration record). -/
def mask_sensitive_data (cfg : Config) (text : Str) : Str :=
  if text.isEmpty then text
  else
    let t1 :=
      if !cfg.LT_ACCESS_KEY.isEmpty && hasSub cfg.LT_ACCESS_KEY text then
        replaceAll cfg.LT_ACCESS_KEY tokAccessKey text
      else text
    let t2 := sub3 t1
    let t3 := sub4 t2
    if !cfg.GOOGLE_API_KEY.isEmpty && hasSub cfg.GOOGLE_API_KEY t3 then
      replaceAll cfg.GOOGLE_API_KEY tokApiKey t3
    else t3

/-- Decimal rendering of a task/step number (Python str formatting). -/
def natStr (n : Nat) : Str := (Nat.repr n).data

/-- A log entry `[{timestamp}] {message}`. -/
def log_at (ts msg : Str) : Str := ("[").data ++ ts ++ ("] ").data ++ msg

deriving instance DecidableEq for Except

/-- Task descriptor: the fields of the `task_info` dictionary that
`run_task` reads. -/
structure TaskInfo where
  scenario_name : Str
  prompt_text : Str
  category : Str
  priority : Str
deriving DecidableEq

/-- The nested `root` payload of a step's action object
(`action_obj.root`): its class name and its `__dict__` items in order
(`none` models a Python `None` value). -/
structure RootObj where
  typeName : Str
  dict : List (Str × Option Str)
deriving DecidableEq

/-- A step's action object: optional `root` attribute, the class name
(every Python object has `__class__`, so the source's `hasattr` test for it
always succeeds and the later `name`/fallback branches are dead code), and
an optional `__dict__`. -/
structure ActionItem where
  root : Option RootObj
  typeName : Str
  dict : Option (List (Str × Option Str))
deriving DecidableEq

/-- The `step.action` attribute may be a list (the source takes its first
element when non-empty) or a single object. -/
inductive ActionPayload
  | ofList (items : List ActionItem)
  | ofObj (item : ActionItem)
deriving DecidableEq

/-- One duck-typed step of the agent history.  An absent attribute and an
attribute holding Python `None` behave identically in the source for
`action` (both leave the name at `N/A`), so both are modelled as `none`;
for `thought`/`result`/`model_output` the source applies `str(...)` to the
present value, so a present value is modelled as the resulting string. -/
structure StepObj where
  action : Option ActionPayload
  thought : Option Str
  result : Option Str
  model_output : Option Str
deriving DecidableEq

/-- The outcome object returned by `agent.run()`: an optional `history`
attribute whose evaluation may itself raise, the `is_done()` call (which
may raise), and an optional `final_result()` message. -/
structure Outcome where
  history : Option (Except Str (List StepObj))
  is_done : Except Str Bool
  final_result : Option Str
deriving DecidableEq

/-- Result of the remote `Browser(...)` construction attempt: success, a
`TypeError` (triggering the local fallback), or another exception. -/
inductive RemoteRes
  | ok
  | typeErr
  | err (msg : Str)
deriving DecidableEq

/-- The external world of one `run_task` call: the browser construction
attempts, the agent run, the teardown, and the (opaque) clock readings. -/
structure Env where
  remoteBrowser : RemoteRes
  localBrowser : Except Str Unit
  runResult : Except Str (Option Outcome)
  stopResult : Except Str Unit
  startTime : Str
  endTime : Str
  errorTime : Str
  duration : Str
deriving DecidableEq

/-- One normalized step record (`step_info` dictionary); `screenshot` is
always `None` in the source. -/
structure StepInfo where
  step_number : Nat
  action : Str
  action_details : Str
  thought : Str
  result : Str
  model_output : Str
  screenshot : Option Unit
deriving DecidableEq

/-- The result dictionary produced by `run_task`. -/
structure Result where
  task_number : Nat
  scenario : Str
  category : Str
  priority : Str
  prompt : Str
  success : Bool
  error : Option Str
  logs : List Str
  agent_steps : List StepInfo
deriving DecidableEq

/-- `.replace('Model', '').replace('Action', '')` applied to a class name. -/
def stripModelAction (s : Str) : Str :=
  replaceAll ("Action").data [] (replaceAll ("Model").data [] s)

/-- The `__dict__` loop of the root branch: first item whose value is not
`None` and whose key is not `model_config`/`model_fields`, rendered as
`key: value`. -/
def firstDictDetail : List (Str × Option Str) → Str
  | [] => []
  | (k, v) :: rest =>
      match v with
      | some vs =>
          if k = ("model_config").data || k = ("model_fields").data then
            firstDictDetail rest
          else k ++ (": ").data ++ vs
      | none => firstDictDetail rest

/-- Join with a separator. -/
def joinSep (sep : Str) : List Str → Str
  | [] => []
  | [x] => x
  | x :: y :: rest => x ++ sep ++ joinSep sep (y :: rest)

/-- Abstract rendering of Python `str(action_obj.__dict__)` (the exact
dict repr format is not load-bearing anywhere in the source or the spec). -/
def dictRepr (d : List (Str × Option Str)) : Str :=
  ("\x7b").data ++
    joinSep (", ").data
      (d.map (fun p =>
        p.1 ++ (": ").data ++ (match p.2 with | some v => v | none => ("None").data))) ++
  ("\x7d").data

/-- Action name/details extraction from one action object
(src/task_runner_utils.py lines 154-175). -/
def extract_item (x : ActionItem) : Str × Str :=
  match x.root with
  | some r => (stripModelAction r.typeName, firstDictDetail r.dict)
  | none =>
      (stripModelAction x.typeName,
       match x.dict with | some d => dictRepr d | none => [])

/-- Action name/details extraction (lines 143-175).  An empty action list
is not unwrapped and is then treated as an object of class `list` with no
`__dict__`. -/
def extract_action (a : Option ActionPayload) : Str × Str :=
  match a with
  | none => (("N/A").data, [])
  | some (.ofList []) => (("list").data, [])
  | some (.ofList (x :: _)) => extract_item x
  | some (.ofObj x) => extract_item x

/-- Is there an occurrence of the word `w` in `s` with `\b` on both sides?
`prevWord` says whether the character just before the current position is
a word character. -/
def hasWordGo (w : Str) (prevWord : Bool) : Str → Bool
  | [] => false
  | c :: t =>
      (!prevWord && startsWith w (c :: t) &&
        (match (c :: t).drop w.length with
         | [] => true
         | d :: _ => !isWordC d)) ||
      hasWordGo w (isWordC c) t

/-- Python `re.search(r'\bW\b', s)` for a word `W` made of word characters. -/
def hasWord (w : Str) (s : Str) : Bool := hasWordGo w false s

/-- The keyword fallback over the step's result text (lines 178-193). -/
def action_from_result (r : Str) : Option Str :=
  if hasWord ("Clicked").data r then some ("Click").data
  else if hasWord ("Scrolled").data r then some ("Scroll").data
  else if hasWord ("Navigated").data r || hasWord ("Navigate").data r then
    some ("Navigate").data
  else if hasWord ("Waited").data r then some ("Wait").data
  else if hasWord ("Switched").data r then some ("SwitchTab").data
  else if hasWord ("Input").data r || hasWord ("Typed").data r then
    some ("Input").data
  else none

/-- Build the `step_info` record for the `i`-th history step
(lines 141-215): action classification, masked thought (falling back to
the model output), masked result text (default `N/A`), masked model
output (default empty). -/
def mk_step_info (cfg : Config) (i : Nat) (s : StepObj) : StepInfo :=
  let p := extract_action s.action
  let an :=
    if p.1 = ("N/A").data then
      match s.result with
      | some r => (action_from_result r).getD p.1
      | none => p.1
    else p.1
  { step_number := i
    action := an
    action_details := p.2
    thought :=
      match s.thought with
      | some th => mask_sensitive_data cfg th
      | none =>
        match s.model_output with
        | some mo => mask_sensitive_data cfg mo
        | none => []
    result :=
      match s.result with
      | some r => mask_sensitive_data cfg r
      | none => ("N/A").data
    model_output :=
      match s.model_output with
      | some m => mask_sensitive_data cfg m
      | none => []
    screenshot := none }

/-- History extraction (lines 138-216): nothing to do when the outcome is
absent or has no `history` attribute; a raise while evaluating the history
propagates; otherwise each step is normalized and one `Step i: name` log
line is produced per step. -/
def extract_steps (cfg : Config) (ts : Str) (outcome : Option Outcome) :
    Except Str (List StepInfo × List Str) :=
  match outcome with
  | none => .ok ([], [])
  | some oc =>
    match oc.history with
    | none => .ok ([], [])
    | some (.error e) => .error e
    | some (.ok hs) =>
      let infos := (hs.enumFrom 1).map (fun p => mk_step_info cfg p.1 p.2)
      .ok (infos,
        infos.map (fun si =>
          log_at ts (("Step ").data ++ natStr si.step_number ++ (": ").data ++ si.action)))

/-- The `ValueError` message of line 79. -/
def credMsg : Str :=
  ("LT_USERNAME and LT_ACCESS_KEY must be set when USE_LAMBDATEST is true").data

/-- The fixed failure-indicator phrases (lines 232-247), in source order. -/
def failure_indicators : List Str :=
  [("unable to").data, ("could not").data, ("failed to").data,
   ("did not").data, ("cannot").data, ("was not able").data,
   ("stuck at").data, ("consistently failed").data,
   ("despite numerous attempts").data, ("however,").data,
   ("but ").data, ("except ").data, ("unfortunately").data,
   ("unsuccessfully").data]

/-- Does the lower-cased final message contain any failure indicator
(line 250)? -/
def has_failure_indicator (finalMsg : Str) : Bool :=
  failure_indicators.any (fun ind => hasSub ind (pyLower finalMsg))

/-- Browser acquisition (lines 72-125): credential precondition, remote
attempt with `TypeError` fallback to local, or plain local construction.
Returns the log entries appended and either success (a browser was
assigned) or the raised message (the `browser` variable is still `None`
in every error case: a failing constructor does not assign). -/
def acquire_browser (cfg : Config) (env : Env) : List Str × Except Str Unit :=
  if cfg.USE_LAMBDATEST then
    if cfg.LT_USERNAME.isEmpty || cfg.LT_ACCESS_KEY.isEmpty then
      ([], .error credMsg)
    else
      match env.remoteBrowser with
      | .ok =>
          ([log_at env.startTime (("Initializing LambdaTest remote execution").data),
            log_at env.startTime (("Connected to LambdaTest").data)], .ok ())
      | .typeErr =>
          ([log_at env.startTime (("Initializing LambdaTest remote execution").data),
            log_at env.startTime (("WARNING: browser-use doesn't support remote execution").data),
            log_at env.startTime (("Falling back to local browser execution").data)],
           env.localBrowser)
      | .err e =>
          ([log_at env.startTime (("Initializing LambdaTest remote execution").data)],
           .error e)
  else
    match env.localBrowser with
    | .ok _ => ([log_at env.startTime (("Using local browser execution").data)], .ok ())
    | .error e => ([], .error e)

/-- The four log entries of lines 130-133. -/
def preamble_logs (env : Env) (t : TaskInfo) : List Str :=
  [log_at env.startTime (("Test execution started").data),
   log_at env.startTime (("Scenario: ").data ++ t.scenario_name),
   log_at env.startTime (("Category: ").data ++ t.category),
   log_at env.startTime (("Priority: ").data ++ t.priority)]

/-- The `try` block of `run_task` (lines 67-284): either the normal
`Result` or the raised message together with the log entries accumulated
up to the raise (the shared mutable `logs` list). -/
def run_task_attempt (cfg : Config) (env : Env) (t : TaskInfo) (n : Nat) :
    Except (Str × List Str) Result :=
  match acquire_browser cfg env with
  | (alogs, .error e) => .error (e, alogs)
  | (alogs, .ok _) =>
    let logs1 := alogs ++ preamble_logs env t
    match env.runResult with
    | .error e => .error (e, logs1)
    | .ok outcome =>
      match extract_steps cfg env.startTime outcome with
      | .error e => .error (e, logs1)
      | .ok (steps, slogs) =>
        let logs3 := logs1 ++ slogs ++
          [log_at env.endTime (("Test execution completed").data),
           log_at env.endTime (("Duration: ").data ++ env.duration ++ (" seconds").data)]
        match (match outcome with | none => Except.ok false | some oc => oc.is_done) with
        | .error e => .error (e, logs3)
        | .ok done0 =>
          let finalMsg : Option Str :=
            match outcome with | none => none | some oc => oc.final_result
          let dgrade : Bool :=
            match finalMsg with
            | some fr => done0 && has_failure_indicator fr
            | none => false
          let task_success := done0 && !dgrade
          let dlogs : List Str :=
            match finalMsg with
            | some fr =>
                if done0 && has_failure_indicator fr then
                  [log_at env.endTime (("Final result: ").data ++ fr),
                   log_at env.endTime (("Status: FAILED - Task reported completion but final message indicates failure").data)]
                else []
            | none => []
          let flog : List Str :=
            match finalMsg with
            | some fr => [log_at env.endTime (("Final result: ").data ++ fr)]
            | none => []
          .ok
            { task_number := n
              scenario := t.scenario_name
              category := t.category
              priority := t.priority
              prompt := t.prompt_text
              success := task_success
              error := if task_success then none else some (("Task not completed").data)
              logs := logs3 ++ dlogs ++ flog ++
                [log_at env.endTime
                  (if task_success then ("Status: PASSED").data
                   else ("Status: FAILED - Task not completed").data)]
              agent_steps := steps }

/-- The `except` handler (lines 285-306): masked message as error, the
accumulated logs plus the two error entries, empty step list. -/
def exc_result (cfg : Config) (env : Env) (t : TaskInfo) (n : Nat)
    (e : Str) (lg : List Str) : Result :=
  let em := mask_sensitive_data cfg e
  { task_number := n
    scenario := t.scenario_name
    category := t.category
    priority := t.priority
    prompt := t.prompt_text
    success := false
    error := some em
    logs := lg ++
      [log_at env.errorTime (("ERROR: ").data ++ em),
       log_at env.errorTime (("Status: FAILED - Exception occurred").data)]
    agent_steps := [] }

/-- `run_task` (lines 43-314): the `try` body with every raise converted by
the handler into a failure `Result`. -/
def run_task (cfg : Config) (env : Env) (t : TaskInfo) (n : Nat) : Result :=
  match run_task_attempt cfg env t n with
  | .ok r => r
  | .error (e, lg) => exc_result cfg env t n e lg

/-- Was a browser assigned (so that the `finally` block's
`if browser is not None` test succeeds)? -/
def browser_acquired (cfg : Config) (env : Env) : Bool :=
  match (acquire_browser cfg env).2 with
  | .ok _ => true
  | .error _ => false

/-- `run_task` together with the number of `browser.stop()` invocations
performed by the `finally` block (lines 307-314): one when a browser was
assigned, zero otherwise; a failing `stop()` is caught there and only
printed. -/
def run_task_full (cfg : Config) (env : Env) (t : TaskInfo) (n : Nat) :
    Result × Nat :=
  (run_task cfg env t n, if browser_acquired cfg env then 1 else 0)

/-- Scheduler trace events: a set of concurrently launched task numbers,
or a pause of a number of seconds. -/
inductive Event
  | launch (nums : List Nat)
  | pause (secs : Nat)
deriving DecidableEq

/-- Loop body of `run_tasks_sequential` (lines 331-338): tasks one at a
time in input order, numbered from `i`, with a pause after every task
except the last. -/
def seqGo (exec : Nat → TaskInfo → Result) (d : Nat) :
    Nat → List TaskInfo → List Result × List Event
  | _, [] => ([], [])
  | i, t :: rest =>
      let r := exec i t
      let p := seqGo exec d (i + 1) rest
      (r :: p.1,
       Event.launch [i] :: (if rest.isEmpty then [] else [Event.pause d]) ++ p.2)

/-- `run_tasks_sequential` (lines 317-340), over an abstract per-task
executor `exec` (instantiated with `run_task`). -/
def run_tasks_sequential (exec : Nat → TaskInfo → Result)
    (tasks : List TaskInfo) (task_delay : Nat) : List Result × List Event :=
  seqGo exec task_delay 1 tasks

/-- Batch loop of `run_tasks_parallel` (lines 368-387): slice of size `k`,
launched concurrently with numbers `start, start+1, ...`; a 2-second pause
follows whenever further tasks remain.  `fuel` bounds the recursion by the
number of remaining tasks (each round consumes `k ≥ 1` of them). -/
def parGo (exec : Nat → TaskInfo → Result) (k : Nat) :
    Nat → Nat → List TaskInfo → List Result × List Event
  | _, _, [] => ([], [])
  | 0, _, _ => ([], [])
  | fuel + 1, start, rem =>
      let batch := rem.take k
      let brs := (batch.enumFrom start).map (fun p => exec p.1 p.2)
      let nums := (batch.enumFrom start).map Prod.fst
      let rest := rem.drop k
      if rest.isEmpty then (brs, [Event.launch nums])
      else
        let p := parGo exec k fuel (start + k) rest
        (brs ++ p.1, Event.launch nums :: Event.pause 2 :: p.2)

/-- `run_tasks_parallel` (lines 343-389): everything in one batch when
`MAX_PARALLEL_AGENTS` is zero or at least the task count, otherwise the
batch loop.  `asyncio.gather` preserves argument order, so the collected
results are in input order in both branches. -/
def run_tasks_parallel (cfg : Config) (exec : Nat → TaskInfo → Result)
    (tasks : List TaskInfo) : List Result × List Event :=
  let k := cfg.MAX_PARALLEL_AGENTS
  if k = 0 || tasks.length ≤ k then
    ((tasks.enumFrom 1).map (fun p => exec p.1 p.2),
     [Event.launch ((tasks.enumFrom 1).map Prod.fst)])
  else parGo exec k tasks.length 1 tasks

/-- Batches of `k` consecutive elements (the index slices of the source's
`range(0, len(tasks), max_parallel)` loop), for `k ≥ 1`. -/
def chunksGo (k : Nat) : Nat → List α → List (List α)
  | _, [] => []
  | 0, l => [l]
  | fuel + 1, l => l.take k :: chunksGo k fuel (l.drop k)

/-- `chunksOf k l`: consecutive slices of size `k` (last may be shorter). -/
def chunksOf (k : Nat) (l : List α) : List (List α) := chunksGo k l.length l

/-- A concrete task descriptor used for witnesses. -/
def tA : TaskInfo :=
  { scenario_name := ("Book a hotel").data
    prompt_text := ("Find a hotel in Rome").data
    category := ("Hotels").data
    priority := ("High").data }

/-- Local-execution configuration with no secrets configured. -/
def cfgLocal : Config :=
  { USE_LAMBDATEST := false
    LT_USERNAME := []
    LT_ACCESS_KEY := []
    GOOGLE_API_KEY := []
    HEADLESS_BROWSER := true
    MAX_PARALLEL_AGENTS := 3 }

/-- A benign environment: local browser, run returns no outcome object. -/
def envBase : Env :=
  { remoteBrowser := .ok
    localBrowser := .ok ()
    runResult := .ok none
    stopResult := .ok ()
    startTime := ("10:00:00").data
    endTime := ("10:01:00").data
    errorTime := ("10:01:01").data
    duration := ("60.00").data }

/-- Environment in which the local browser constructor raises. -/
def envAcqFail : Env := { envBase with localBrowser := .error ("boom").data }

/-- Outcome claiming completion whose final message names a failure. -/
def ocDowngrade : Outcome :=
  { history := none
    is_done := .ok true
    final_result := some ("Unfortunately I was unable to complete the booking").data }

/-- Environment whose run yields the contradictory outcome. -/
def envDowngrade : Env := { envBase with runResult := .ok (some ocDowngrade) }

/-- Minimal per-task executor used in scheduler witnesses. -/
def execStub (m : Nat) (t : TaskInfo) : Result :=
  { task_number := m
    scenario := t.scenario_name
    category := t.category
    priority := t.priority
    prompt := t.prompt_text
    success := true
    error := none
    logs := []
    agent_steps := [] }

/-- Configuration with a parallel limit of 2. -/
def cfgPar2 : Config := { cfgLocal with MAX_PARALLEL_AGENTS := 2 }

/-- A configured secret literal that matches nothing else in the fixtures. -/
def secretKey : Str := ("SECRETPASS123").data

/-- Configuration whose LambdaTest access key is the secret literal. -/
def cfgSecret : Config := { cfgLocal with LT_ACCESS_KEY := secretKey }

/-- Outcome whose final message (free of failure phrases) leaks the secret. -/
def ocLeak : Outcome :=
  { history := none
    is_done := .ok true
    final_result := some (("Done, reference SECRETPASS123 saved").data) }

/-- Environment whose run yields the secret-leaking outcome. -/
def envLeak : Env := { envBase with runResult := .ok (some ocLeak) }

/-- One history step whose free-text fields all contain the secret. -/
def stepLeak : StepObj :=
  { action := none
    thought := some (("think SECRETPASS123").data)
    result := some (("Clicked SECRETPASS123").data)
    model_output := some (("model SECRETPASS123").data) }

/-- Outcome with a one-step history. -/
def ocSteps : Outcome :=
  { history := some (.ok [stepLeak])
    is_done := .ok true
    final_result := none }

/-- Environment whose run yields the one-step history. -/
def envSteps : Env := { envBase with runResult := .ok (some ocSteps) }

/-- Remote execution requested while both credentials are unset. -/
def cfgLTnoCreds : Config := { cfgLocal with USE_LAMBDATEST := true }

/-- The constant tail `: "***MASKED***"` of the accessKey replacement,
so that `repl3 = lit3 ++ mid3`. -/
def mid3 : Str := (": \"***MASKED***\"").data

/-- Sub-pattern positions of the accessKey regex, for reasoning about
partial matches that start before a replaced region. -/
inductive St3 where
  | lit (rest : Str)
  | wsColon
  | wsQuote
  | nonq
deriving DecidableEq

/-- Step semantics of the accessKey regex from sub-pattern position `σ`:
the rest of the string after completing the pattern, when it matches a
prefix from there.  The scan is deterministic because each character class
is disjoint from the character that must follow it. -/
def m3run : St3 → Str → Option Str
  | _, [] => none
  | .lit L, d :: t =>
      match L with
      | [] => none
      | c :: L' =>
          if d = c then
            match L' with
            | [] => m3run .wsColon t
            | _ :: _ => m3run (.lit L') t
          else none
  | .wsColon, c :: t =>
      if isWS c then m3run .wsColon t
      else if c = ':' then m3run .wsQuote t
      else none
  | .wsQuote, c :: t =>
      if isWS c then m3run .wsQuote t
      else if c = '"' then m3run .nonq t
      else none
  | .nonq, c :: t => if c = '"' then some t else m3run .nonq t

/-- The sub-pattern positions reachable from the start of the accessKey
regex: literal states carry a suffix of the literal. -/
def Good3 : St3 → Prop
  | .lit L => ∃ k, L = lit3.drop k
  | _ => True

/-- `Rel3 t u`: `u` is `t` with zero or more accessKey matches replaced by
the redacted form — the edit script of the `sub3` scan. -/
inductive Rel3 : Str → Str → Prop
  | nil : Rel3 [] []
  | skip (c : Char) {t u : Str} : Rel3 t u → Rel3 (c :: t) (c :: u)
  | repl {s r u : Str} : match3 s = some r → Rel3 r u → Rel3 s (repl3 ++ u)

/-- Sub-pattern positions of the API-key regex. -/
inductive St4 where
  | api (rest : Str)
  | sep
  | key3 (rest : Str)
  | wsSep
  | wsVal
  | run (count : Nat)
deriving DecidableEq

/-- Step semantics of the API-key regex from sub-pattern position `σ`:
does the pattern match a prefix of `s` from there?  `run n` counts the
`[\w-]` characters already consumed; the match completes when the run ends
(on a non-word character or the end) with at least 20 of them.  The
optional separator and quotes commit greedily; this is exact because a
failing continuation can never be rescued by the one-character backtrack
(the skipped character then fails the next class directly). -/
def m4run : St4 → Str → Bool
  | .run n, [] => decide (20 ≤ n)
  | _, [] => false
  | .api L, d :: t =>
      match L with
      | [] => false
      | c :: L' =>
          if lowC d = c then
            match L' with
            | [] => m4run .sep t
            | _ :: _ => m4run (.api L') t
          else false
  | .sep, d :: t =>
      if d = '_' || d = '-' then m4run (.key3 (("key").data)) t
      else if lowC d = 'k' then m4run (.key3 (("ey").data)) t
      else false
  | .key3 L, d :: t =>
      match L with
      | [] => false
      | c :: L' =>
          if lowC d = c then
            match L' with
            | [] => m4run .wsSep t
            | _ :: _ => m4run (.key3 L') t
          else false
  | .wsSep, d :: t =>
      if isWS d then m4run .wsSep t
      else if d = ':' || d = '=' then m4run .wsVal t
      else false
  | .wsVal, d :: t =>
      if isWS d then m4run .wsVal t
      else if d = '"' || d = '\'' then m4run (.run 0) t
      else if isWdash d then m4run (.run 1) t
      else false
  | .run n, d :: t => if isWdash d then m4run (.run (n + 1)) t else decide (20 ≤ n)

/-- The sub-pattern positions reachable from the start of the API-key
regex. -/
def Good4 : St4 → Prop
  | .api L => ∃ k, L = (("api").data).drop k
  | .key3 L => ∃ k, L = (("key").data).drop k
  | _ => True

/-- `Rel4 t u`: `u` is `t` with zero or more API-key matches replaced —
the edit script of the `sub4` scan. -/
inductive Rel4 : Str → Str → Prop
  | nil : Rel4 [] []
  | skip (c : Char) {t u : Str} : Rel4 t u → Rel4 (c :: t) (c :: u)
  | repl {s : Str} {cap r u : Str} :
      match4 s = some (cap, r) → Rel4 r u → Rel4 s (repl4 cap ++ u)

/-- Input on which masking is not idempotent: the API-key match greedily
consumes the opening quote of the already-normalized accessKey pair, and
the second pass then finds a fresh accessKey match. -/
def x9 : Str :=
  ("apikey: aaaaaaaaaaaaaaaaaaaa\"accessKey\": \"***MASKED***\"accessKey\": \"v\"").data

/-- Shape of any text matched by the key group `(api[_-]?key|apikey)`
(case-insensitive): a case variant of `api`, an optional single `_` or `-`,
and a case variant of `key`. -/
def CapForm (cap : Str) : Prop :=
  ∃ p1 m p2, cap = p1 ++ m ++ p2
    ∧ pyLower p1 = ('a' :: 'p' :: 'i' :: [])
    ∧ pyLower p2 = ('k' :: 'e' :: 'y' :: [])
    ∧ (m = [] ∨ ∃ c, m = [c] ∧ (c = '_' || c = '-' : Bool) = true)

/-- Every normally returned `Result` carries `error = none` exactly when it
succeeded, and the literal `Task not completed` otherwise (lines 274-284). -/
theorem attempt_ok_error_eq {cfg : Config} {env : Env} {t : TaskInfo} {n : Nat}
    {r : Result} (h : run_task_attempt cfg env t n = .ok r) :
    r.error = if r.success then none else some (("Task not completed").data) := by
  unfold run_task_attempt at h
  split at h
  · exact Except.noConfusion h
  · split at h
    · exact Except.noConfusion h
    · split at h
      · exact Except.noConfusion h
      · split at h
        · exact Except.noConfusion h
        · injection h with h
          subst h
          rfl

/-- C1: every exception raised inside the `try` body of `run_task` (while
acquiring the session, invoking it, or extracting the step history) is
caught and converted into a `Result` with `success = false`, `error` the
masked exception message, the logs accumulated so far plus the two error
entries, and an empty step list (partial step history is discarded). -/
theorem run_task_exception_to_result (cfg : Config) (env : Env)
    (t : TaskInfo) (n : Nat) (e : Str) (lg : List Str)
    (h : run_task_attempt cfg env t n = .error (e, lg)) :
    run_task cfg env t n =
      { task_number := n
        scenario := t.scenario_name
        category := t.category
        priority := t.priority
        prompt := t.prompt_text
        success := false
        error := some (mask_sensitive_data cfg e)
        logs := lg ++
          [log_at env.errorTime (("ERROR: ").data ++ mask_sensitive_data cfg e),
           log_at env.errorTime (("Status: FAILED - Exception occurred").data)]
        agent_steps := [] } := by
  unfold run_task
  rw [h]
  rfl

/-- Witness for C1 at a concrete failing acquisition. -/
theorem run_task_exception_to_result_witness :
    run_task cfgLocal envAcqFail tA 1 =
      { task_number := 1
        scenario := tA.scenario_name
        category := tA.category
        priority := tA.priority
        prompt := tA.prompt_text
        success := false
        error := some (mask_sensitive_data cfgLocal (("boom").data))
        logs := [] ++
          [log_at envAcqFail.errorTime
            (("ERROR: ").data ++ mask_sensitive_data cfgLocal (("boom").data)),
           log_at envAcqFail.errorTime (("Status: FAILED - Exception occurred").data)]
        agent_steps := [] } :=
  run_task_exception_to_result cfgLocal envAcqFail tA 1 (("boom").data) []
    (by decide)

/-- C2: a `Result` of `run_task` fails exactly when it carries an error
message, on the normal-return and the exception path alike. -/
theorem run_task_success_iff_no_error (cfg : Config) (env : Env)
    (t : TaskInfo) (n : Nat) :
    (run_task cfg env t n).success = false ↔
      (run_task cfg env t n).error ≠ none := by
  unfold run_task
  cases hat : run_task_attempt cfg env t n with
  | ok r =>
      have he := attempt_ok_error_eq hat
      cases hs : r.success with
      | false => simp [hs] at he; simp [hs, he]
      | true => simp [hs] at he; simp [hs, he]
  | error p => cases p with | mk e lg => simp [exc_result]

/-- C10: on every non-exception failure path the error field is exactly
the literal `Task not completed` (the contradiction downgrade included;
no derived message is stored in `error`). -/
theorem run_task_failure_error_literal (cfg : Config) (env : Env)
    (t : TaskInfo) (n : Nat) (r : Result)
    (h : run_task_attempt cfg env t n = .ok r) (hs : r.success = false) :
    r.error = some (("Task not completed").data) := by
  have he := attempt_ok_error_eq h
  rw [hs] at he
  simpa using he

/-- Witness for C10: a run whose outcome object is absent fails normally
with the literal error. -/
theorem run_task_failure_error_literal_witness :
    (run_task cfgLocal envBase tA 1).error = some (("Task not completed").data) :=
  run_task_failure_error_literal cfgLocal envBase tA 1
    (run_task cfgLocal envBase tA 1) (by decide) (by decide)

/-- C3: whenever the outcome reports `is_done() == true` but the final
message contains a configured failure phrase, the produced `Result` has
`success = false` — on the normal path through the downgrade of lines
250-257, and trivially on every exception path. -/
theorem run_task_contradiction_downgrade (cfg : Config) (env : Env)
    (t : TaskInfo) (n : Nat) (oc : Outcome) (fr : Str)
    (hrun : env.runResult = .ok (some oc))
    (hdone : oc.is_done = .ok true)
    (hfr : oc.final_result = some fr)
    (hind : has_failure_indicator fr = true) :
    (run_task cfg env t n).success = false := by
  cases hat : run_task_attempt cfg env t n with
  | error p =>
      unfold run_task
      rw [hat]
      rfl
  | ok r =>
      unfold run_task
      rw [hat]
      unfold run_task_attempt at hat
      split at hat
      · exact Except.noConfusion hat
      · split at hat
        · next e heq =>
            rw [hrun] at heq
            exact Except.noConfusion heq
        · next outcome heq =>
            rw [hrun] at heq
            injection heq with heq
            subst heq
            split at hat
            · exact Except.noConfusion hat
            · split at hat
              · next e heq2 =>
                  dsimp only at heq2
                  rw [hdone] at heq2
                  exact Except.noConfusion heq2
              · next done0 heq2 =>
                  dsimp only at heq2
                  rw [hdone] at heq2
                  injection heq2 with heq2
                  subst heq2
                  dsimp only at hat
                  injection hat with hat
                  subst hat
                  simp [hfr, hind]

/-- Witness for C3: a concrete contradictory outcome is downgraded. -/
theorem run_task_contradiction_downgrade_witness :
    (run_task cfgLocal envDowngrade tA 1).success = false :=
  run_task_contradiction_downgrade cfgLocal envDowngrade tA 1 ocDowngrade
    (("Unfortunately I was unable to complete the booking").data)
    (by decide) (by decide) (by decide) (by decide)

/-- C5: the `finally` block tears the session down exactly once whenever a
browser was assigned and never otherwise; whether a browser was assigned
does not depend on the run step's outcome (so the teardown also happens
when the run raises); and the teardown result (including a failing
`stop()`) changes neither the `Result` nor the teardown count. -/
theorem run_task_teardown_once (cfg : Config) (env : Env)
    (t : TaskInfo) (n : Nat) :
    ((run_task_full cfg env t n).2 = if browser_acquired cfg env then 1 else 0)
    ∧ (∀ rr, browser_acquired cfg { env with runResult := rr }
          = browser_acquired cfg env)
    ∧ (∀ st, run_task_full cfg { env with stopResult := st } t n
          = run_task_full cfg env t n) := by
  refine ⟨rfl, fun rr => ?_, fun st => ?_⟩
  · cases env
    rfl
  · cases env
    rfl

/-- The sequential loop produces one result per task, numbered from `i`. -/
theorem seqGo_fst (exec : Nat → TaskInfo → Result) (d : Nat) :
    ∀ (ts : List TaskInfo) (i : Nat),
      (seqGo exec d i ts).1 = (ts.enumFrom i).map (fun p => exec p.1 p.2)
  | [], _ => rfl
  | t :: rest, i => by
      simp [seqGo, List.enumFrom_cons, seqGo_fst exec d rest (i + 1)]

/-- The parallel batch loop produces one result per task, numbered from
`start`, in input order. -/
theorem parGo_fst (exec : Nat → TaskInfo → Result) {k : Nat} (hk : 0 < k) :
    ∀ (fuel start : Nat) (rem : List TaskInfo), rem.length ≤ fuel →
      (parGo exec k fuel start rem).1
        = (rem.enumFrom start).map (fun p => exec p.1 p.2) := by
  intro fuel
  induction fuel with
  | zero =>
      intro start rem h
      have : rem = [] := List.eq_nil_of_length_eq_zero (Nat.le_zero.mp h)
      subst this
      rfl
  | succ f ih =>
      intro start rem h
      cases rem with
      | nil => rfl
      | cons t rest =>
          simp only [parGo]
          by_cases hemp : ((t :: rest).drop k).isEmpty
          · rw [if_pos hemp]
            have hlen : (t :: rest).length ≤ k :=
              List.drop_eq_nil_iff.mp (List.isEmpty_iff.mp hemp)
            rw [List.take_of_length_le hlen]
          · rw [if_neg hemp]
            have hkn : k < (t :: rest).length := by
              by_contra hle
              exact hemp (List.isEmpty_iff.mpr (List.drop_eq_nil_iff.mpr (by omega)))
            have hdl : ((t :: rest).drop k).length ≤ f := by
              rw [List.length_drop]
              simp at h ⊢
              omega
            have htl : ((t :: rest).take k).length = k := by
              rw [List.length_take]
              omega
            rw [ih (start + k) _ hdl]
            conv_rhs => rw [← List.take_append_drop k (t :: rest)]
            rw [List.enumFrom_append, htl, List.map_append]

/-- `chunksGo` does not depend on the fuel once it covers the length. -/
theorem chunksGo_irrel {α : Type} {k : Nat} (hk : 0 < k) :
    ∀ (fuel : Nat), ∀ (fuel' : Nat) (l : List α), l.length ≤ fuel → l.length ≤ fuel' →
      chunksGo k fuel l = chunksGo k fuel' l := by
  intro fuel
  induction fuel using Nat.strong_induction_on with
  | _ fuel ih =>
    intro fuel' l h h'
    cases l with
    | nil => cases fuel <;> cases fuel' <;> rfl
    | cons a t =>
        cases fuel with
        | zero => simp at h
        | succ f =>
            cases fuel' with
            | zero => simp at h'
            | succ f' =>
                simp only [chunksGo]
                congr 1
                apply ih f (Nat.lt_succ_self f) f'
                · rw [List.length_drop]
                  simp at h ⊢
                  omega
                · rw [List.length_drop]
                  simp at h' ⊢
                  omega

/-- Unfolding equation of `chunksOf` on a non-empty list. -/
theorem chunksOf_cons {α : Type} {k : Nat} (hk : 0 < k) {l : List α}
    (hne : l ≠ []) : chunksOf k l = l.take k :: chunksOf k (l.drop k) := by
  cases l with
  | nil => exact absurd rfl hne
  | cons a t =>
      show chunksGo k (a :: t).length (a :: t) = _
      simp only [List.length_cons, chunksGo]
      congr 1
      apply chunksGo_irrel hk
      · rw [List.length_drop, List.length_cons]
        omega
      · exact le_rfl

/-- The chunks of a non-empty list form a non-empty list. -/
theorem chunksOf_ne_nil {α : Type} {k : Nat} (hk : 0 < k) {l : List α}
    (hne : l ≠ []) : chunksOf k l ≠ [] := by
  rw [chunksOf_cons hk hne]
  simp

/-- Concatenating the chunks gives back the list: the batches partition
the input. -/
theorem chunksOf_join {α : Type} {k : Nat} (hk : 0 < k) (l : List α) :
    (chunksOf k l).flatten = l := by
  have main : ∀ (n : Nat) (l : List α), l.length ≤ n → (chunksOf k l).flatten = l := by
    intro n
    induction n with
    | zero =>
        intro l h
        have : l = [] := List.eq_nil_of_length_eq_zero (Nat.le_zero.mp h)
        subst this
        rfl
    | succ m ih =>
        intro l h
        cases l with
        | nil => rfl
        | cons a t =>
            rw [chunksOf_cons hk (by simp), List.flatten_cons,
              ih ((a :: t).drop k) (by rw [List.length_drop]; simp at h ⊢; omega)]
            exact List.take_append_drop k (a :: t)
  exact main l.length l le_rfl

/-- The number of chunks is `⌈length / k⌉`. -/
theorem chunksOf_length {α : Type} {k : Nat} (hk : 0 < k) (l : List α) :
    (chunksOf k l).length = (l.length + k - 1) / k := by
  have main : ∀ (n : Nat) (l : List α), l.length ≤ n →
      (chunksOf k l).length = (l.length + k - 1) / k := by
    intro n
    induction n with
    | zero =>
        intro l h
        have : l = [] := List.eq_nil_of_length_eq_zero (Nat.le_zero.mp h)
        subst this
        simp [chunksOf, chunksGo, Nat.div_eq_of_lt (show k - 1 < k by omega)]
    | succ m ih =>
        intro l h
        cases l with
        | nil => simp [chunksOf, chunksGo, Nat.div_eq_of_lt (show k - 1 < k by omega)]
        | cons a t =>
            rw [chunksOf_cons hk (by simp), List.length_cons,
              ih ((a :: t).drop k) (by rw [List.length_drop]; simp at h ⊢; omega),
              List.length_drop]
            rcases Nat.lt_or_ge k (a :: t).length with hlt | hge
            · have h1 : (a :: t).length - k + k - 1 = ((a :: t).length - 1 - k) + k := by
                omega
              have h2 : (a :: t).length + k - 1 = ((a :: t).length - 1) + k := by
                omega
              rw [h1, h2, Nat.add_div_right _ hk, Nat.add_div_right _ hk]
              have h3 : (a :: t).length - 1 = ((a :: t).length - 1 - k) + k := by
                omega
              rw [h3, Nat.add_div_right _ hk]
              have h4 : (a :: t).length - 1 - k + k - k = (a :: t).length - 1 - k := by
                omega
              rw [h4]
            · have h1 : (a :: t).length - k = 0 := by omega
              rw [h1]
              have h2 : (0 + k - 1) / k = 0 :=
                Nat.div_eq_of_lt (by omega)
              rw [h2]
              have h3 : (a :: t).length + k - 1 < 2 * k := by
                have : (0 : Nat) < (a :: t).length := List.length_pos.mpr (by simp)
                omega
              have h4 : 1 * k ≤ (a :: t).length + k - 1 := by
                have : (0 : Nat) < (a :: t).length := List.length_pos.mpr (by simp)
                omega
              rw [Nat.div_eq_of_lt_le h4 (by omega : (a :: t).length + k - 1 < (1 + 1) * k)]
  exact main l.length l le_rfl

/-- Every chunk is non-empty and no larger than `k`. -/
theorem chunksOf_sizes {α : Type} {k : Nat} (hk : 0 < k) (l : List α) :
    ∀ b ∈ chunksOf k l, 0 < b.length ∧ b.length ≤ k := by
  have main : ∀ (n : Nat) (l : List α), l.length ≤ n →
      ∀ b ∈ chunksOf k l, 0 < b.length ∧ b.length ≤ k := by
    intro n
    induction n with
    | zero =>
        intro l h b hb
        have : l = [] := List.eq_nil_of_length_eq_zero (Nat.le_zero.mp h)
        subst this
        simp [chunksOf, chunksGo] at hb
    | succ m ih =>
        intro l h b hb
        cases l with
        | nil => simp [chunksOf, chunksGo] at hb
        | cons a t =>
            rw [chunksOf_cons hk (by simp)] at hb
            rcases List.mem_cons.mp hb with hb | hb
            · subst hb
              constructor
              · rw [List.length_take]
                simp
                omega
              · rw [List.length_take]
                omega
            · exact ih ((a :: t).drop k)
                (by rw [List.length_drop]; simp at h ⊢; omega) b hb
  exact main l.length l le_rfl

/-- The chunk list splits as full chunks of size `k` followed by one final
chunk of size between 1 and `k`: only the last batch may be smaller. -/
theorem chunksOf_last_struct {α : Type} {k : Nat} (hk : 0 < k) (l : List α)
    (hne : l ≠ []) :
    ∃ bs last, chunksOf k l = bs ++ [last]
      ∧ (∀ b ∈ bs, b.length = k) ∧ 0 < last.length ∧ last.length ≤ k := by
  have main : ∀ (n : Nat) (l : List α), l.length ≤ n → l ≠ [] →
      ∃ bs last, chunksOf k l = bs ++ [last]
        ∧ (∀ b ∈ bs, b.length = k) ∧ 0 < last.length ∧ last.length ≤ k := by
    intro n
    induction n with
    | zero =>
        intro l h hne
        have : l = [] := List.eq_nil_of_length_eq_zero (Nat.le_zero.mp h)
        exact absurd this hne
    | succ m ih =>
        intro l h hne
        rcases Nat.lt_or_ge k l.length with hlt | hge
        · have hdne : l.drop k ≠ [] := by
            intro hx
            have := List.drop_eq_nil_iff.mp hx
            omega
          obtain ⟨bs, last, hbs, hfull, hl1, hl2⟩ :=
            ih (l.drop k) (by rw [List.length_drop]; omega) hdne
          refine ⟨l.take k :: bs, last, ?_, ?_, hl1, hl2⟩
          · rw [chunksOf_cons hk hne, hbs]
            rfl
          · intro b hb
            rcases List.mem_cons.mp hb with hb | hb
            · subst hb
              rw [List.length_take]
              omega
            · exact hfull b hb
        · refine ⟨[], l, ?_, by simp, ?_, ?_⟩
          · rw [chunksOf_cons hk hne, List.take_of_length_le hge,
              List.drop_eq_nil_iff.mpr hge]
            rfl
          · exact List.length_pos.mpr hne
          · exact hge
  exact main l.length l le_rfl hne

/-- The parallel batch loop's trace is the batches of consecutive task
numbers interspersed with fixed 2-second pauses. -/
theorem parGo_snd (exec : Nat → TaskInfo → Result) {k : Nat} (hk : 0 < k) :
    ∀ (fuel start : Nat) (rem : List TaskInfo), rem ≠ [] → rem.length ≤ fuel →
      (parGo exec k fuel start rem).2
        = List.intersperse (Event.pause 2)
            ((chunksOf k (List.range' start rem.length)).map Event.launch) := by
  intro fuel
  induction fuel with
  | zero =>
      intro start rem hne h
      exact absurd (List.eq_nil_of_length_eq_zero (Nat.le_zero.mp h)) hne
  | succ f ih =>
      intro start rem hne h
      cases rem with
      | nil => exact absurd rfl hne
      | cons t rest =>
          simp only [parGo]
          by_cases hemp : ((t :: rest).drop k).isEmpty
          · rw [if_pos hemp]
            have hlen : (t :: rest).length ≤ k :=
              List.drop_eq_nil_iff.mp (List.isEmpty_iff.mp hemp)
            have hrne : List.range' start (t :: rest).length ≠ [] := by
              rw [List.range'_ne_nil]
              simp
            have hA : List.take k (List.range' start (t :: rest).length)
                = List.range' start (t :: rest).length :=
              List.take_of_length_le (by rw [List.length_range']; exact hlen)
            have hB : List.drop k (List.range' start (t :: rest).length) = ([] : List Nat) :=
              List.drop_eq_nil_iff.mpr (by rw [List.length_range']; exact hlen)
            have hC : List.take k (t :: rest) = t :: rest := List.take_of_length_le hlen
            rw [hC, List.enumFrom_map_fst, chunksOf_cons hk hrne, hA, hB]
            rfl
          · rw [if_neg hemp]
            have hkn : k < (t :: rest).length := by
              by_contra hle
              exact hemp (List.isEmpty_iff.mpr (List.drop_eq_nil_iff.mpr (by omega)))
            have hdne : (t :: rest).drop k ≠ [] := by
              intro hx
              exact hemp (List.isEmpty_iff.mpr hx)
            have hdl : ((t :: rest).drop k).length ≤ f := by
              rw [List.length_drop]
              simp at h ⊢
              omega
            rw [ih (start + k) _ hdne hdl]
            have hrne : List.range' start (t :: rest).length ≠ [] := by
              rw [List.range'_ne_nil]
              simp
            rw [chunksOf_cons hk hrne]
            have hsplit : List.range' start (t :: rest).length
                = List.range' start k ++ List.range' (start + k) ((t :: rest).length - k) := by
              rw [List.range'_append_1]
              congr 1
              omega
            have h1 : List.take k (List.range' start (t :: rest).length)
                = List.range' start k := by
              rw [hsplit]
              exact List.take_left' (by rw [List.length_range'])
            have h2 : List.drop k (List.range' start (t :: rest).length)
                = List.range' (start + k) ((t :: rest).length - k) := by
              rw [hsplit]
              exact List.drop_left' (by rw [List.length_range'])
            rw [h1, h2, List.length_drop]
            have hcne : chunksOf k (List.range' (start + k) ((t :: rest).length - k)) ≠ [] :=
              chunksOf_ne_nil hk (by rw [List.range'_ne_nil]; omega)
            rcases hc : chunksOf k (List.range' (start + k) ((t :: rest).length - k))
              with _ | ⟨c, cs⟩
            · exact absurd hc hcne
            · simp only [List.map_cons]
              rw [List.intersperse_cons_cons, List.enumFrom_map_fst, List.length_take]
              have hmin : min k (t :: rest).length = k := by omega
              rw [hmin]

/-- C4: both scheduling policies return exactly one `Result` per input
task, collected in input order, each produced by the executor at the
task's 1-based input position; consequently the result list has the
length of the input and its task numbers are `1, 2, ..., n` in order. -/
theorem schedulers_one_result_per_task (exec : Nat → TaskInfo → Result)
    (hexec : ∀ m t, (exec m t).task_number = m)
    (cfg : Config) (tasks : List TaskInfo) (d : Nat) :
    ((run_tasks_sequential exec tasks d).1
        = (tasks.enumFrom 1).map (fun p => exec p.1 p.2))
    ∧ ((run_tasks_parallel cfg exec tasks).1
        = (tasks.enumFrom 1).map (fun p => exec p.1 p.2))
    ∧ ((tasks.enumFrom 1).map (fun p => exec p.1 p.2)).length = tasks.length
    ∧ ((tasks.enumFrom 1).map (fun p => exec p.1 p.2)).map Result.task_number
        = List.range' 1 tasks.length := by
  refine ⟨seqGo_fst exec d tasks 1, ?_, ?_, ?_⟩
  · unfold run_tasks_parallel
    dsimp only
    split
    · rfl
    · next hcond =>
        have hk : 0 < cfg.MAX_PARALLEL_AGENTS := by
          simp at hcond
          omega
        exact parGo_fst exec hk tasks.length 1 tasks le_rfl
  · simp
  · rw [List.map_map,
      show (Result.task_number ∘ fun (p : Nat × TaskInfo) => exec p.1 p.2) = Prod.fst
        from funext fun p => hexec p.1 p.2]
    exact List.enumFrom_map_fst 1 tasks

/-- Witness for C4 with three tasks, sequentially and in two parallel
batches. -/
theorem schedulers_one_result_per_task_witness :
    ((run_tasks_sequential execStub [tA, tA, tA] 5).1
        = (([tA, tA, tA] : List TaskInfo).enumFrom 1).map (fun p => execStub p.1 p.2))
    ∧ ((run_tasks_parallel cfgPar2 execStub [tA, tA, tA]).1
        = (([tA, tA, tA] : List TaskInfo).enumFrom 1).map (fun p => execStub p.1 p.2))
    ∧ ((([tA, tA, tA] : List TaskInfo).enumFrom 1).map (fun p => execStub p.1 p.2)).length = 3
    ∧ ((([tA, tA, tA] : List TaskInfo).enumFrom 1).map (fun p => execStub p.1 p.2)).map
          Result.task_number = List.range' 1 3 :=
  schedulers_one_result_per_task execStub (fun _ _ => rfl) cfgPar2 [tA, tA, tA] 5

/-- C8: with `max_parallel = k`, zero `k` or `k ≥ n` launches everything
as one batch with no pause; otherwise the trace is the consecutive batches
of task numbers (slices of size `k`, only the last smaller, jointly a
partition of `1..n`, `⌈n/k⌉` of them, none larger than `k` — so at most
`k` tasks are in flight at once) interspersed with fixed 2-second pauses. -/
theorem run_tasks_parallel_batches (cfg : Config)
    (exec : Nat → TaskInfo → Result) (tasks : List TaskInfo) :
    ((cfg.MAX_PARALLEL_AGENTS = 0 ∨ tasks.length ≤ cfg.MAX_PARALLEL_AGENTS) →
      (run_tasks_parallel cfg exec tasks).2
        = [Event.launch (List.range' 1 tasks.length)])
    ∧ (0 < cfg.MAX_PARALLEL_AGENTS → cfg.MAX_PARALLEL_AGENTS < tasks.length →
        ((run_tasks_parallel cfg exec tasks).2
            = List.intersperse (Event.pause 2)
                ((chunksOf cfg.MAX_PARALLEL_AGENTS
                    (List.range' 1 tasks.length)).map Event.launch)
         ∧ (chunksOf cfg.MAX_PARALLEL_AGENTS (List.range' 1 tasks.length)).flatten
              = List.range' 1 tasks.length
         ∧ (chunksOf cfg.MAX_PARALLEL_AGENTS (List.range' 1 tasks.length)).length
              = (tasks.length + cfg.MAX_PARALLEL_AGENTS - 1) / cfg.MAX_PARALLEL_AGENTS
         ∧ (∀ b ∈ chunksOf cfg.MAX_PARALLEL_AGENTS (List.range' 1 tasks.length),
              0 < b.length ∧ b.length ≤ cfg.MAX_PARALLEL_AGENTS)
         ∧ ∃ bs last, chunksOf cfg.MAX_PARALLEL_AGENTS (List.range' 1 tasks.length)
              = bs ++ [last]
            ∧ (∀ b ∈ bs, b.length = cfg.MAX_PARALLEL_AGENTS)
            ∧ 0 < last.length ∧ last.length ≤ cfg.MAX_PARALLEL_AGENTS)) := by
  constructor
  · intro hc
    unfold run_tasks_parallel
    dsimp only
    split
    · rw [List.enumFrom_map_fst]
    · next hcond =>
        simp at hcond
        rcases hc with hc | hc
        · omega
        · omega
  · intro hk hlt
    have htrace : (run_tasks_parallel cfg exec tasks).2
        = List.intersperse (Event.pause 2)
            ((chunksOf cfg.MAX_PARALLEL_AGENTS
                (List.range' 1 tasks.length)).map Event.launch) := by
      unfold run_tasks_parallel
      dsimp only
      split
      · next hcond =>
          simp at hcond
          omega
      · exact parGo_snd exec hk tasks.length 1 tasks
          (by intro hx; rw [hx] at hlt; simp at hlt) le_rfl
    refine ⟨htrace, ?_, ?_, ?_, ?_⟩
    · exact chunksOf_join hk _
    · rw [chunksOf_length hk, List.length_range']
    · exact chunksOf_sizes hk _
    · exact chunksOf_last_struct hk _ (by rw [List.range'_ne_nil]; omega)

/-- Witness for C8: five tasks with a parallel limit of two form three
batches. -/
theorem run_tasks_parallel_batches_witness :
    (run_tasks_parallel cfgPar2 execStub [tA, tA, tA, tA, tA]).2
      = List.intersperse (Event.pause 2)
          ((chunksOf cfgPar2.MAX_PARALLEL_AGENTS (List.range' 1 5)).map Event.launch) :=
  ((run_tasks_parallel_batches cfgPar2 execStub [tA, tA, tA, tA, tA]).2
    (by decide) (by decide)).1

/-- Counterexample to C6: the final result message is appended to the logs
without passing through the masking filter (lines 256/264/271 use
`result.final_result()` directly), so a secret in the final message
survives into the stored logs even though masking would have removed it. -/
theorem run_task_final_result_unmasked_cex :
    (run_task cfgSecret envLeak tA 1).logs.any (fun lg => hasSub secretKey lg) = true
    ∧ hasSub secretKey
        (mask_sensitive_data cfgSecret (("Done, reference SECRETPASS123 saved").data))
      = false := by
  constructor
  · decide
  · decide

/-- C6 (amended): the step fields pulled from the session — thought (with
its model-output fallback), result text, and model output — are stored in
the `Result`'s step records only after passing through
`mask_sensitive_data`; the final result message, by contrast, reaches the
logs unmasked. -/
theorem run_task_masks_step_text (cfg : Config) (env : Env) (t : TaskInfo)
    (n : Nat) (oc : Outcome) (hs : List StepObj) (r : Result)
    (hrun : env.runResult = .ok (some oc))
    (hhist : oc.history = some (.ok hs))
    (hok : run_task_attempt cfg env t n = .ok r) :
    (∀ (j : Nat), (r.agent_steps[j]?).map StepInfo.thought
        = (hs[j]?).map (fun (s : StepObj) =>
            match s.thought with
            | some th => mask_sensitive_data cfg th
            | none =>
              match s.model_output with
              | some mo => mask_sensitive_data cfg mo
              | none => []))
    ∧ (∀ (j : Nat), (r.agent_steps[j]?).map StepInfo.result
        = (hs[j]?).map (fun (s : StepObj) =>
            match s.result with
            | some rr => mask_sensitive_data cfg rr
            | none => ("N/A").data))
    ∧ (∀ (j : Nat), (r.agent_steps[j]?).map StepInfo.model_output
        = (hs[j]?).map (fun (s : StepObj) =>
            match s.model_output with
            | some m => mask_sensitive_data cfg m
            | none => [])) := by
  have hsteps : r.agent_steps = (hs.enumFrom 1).map (fun p => mk_step_info cfg p.1 p.2) := by
    unfold run_task_attempt at hok
    split at hok
    · exact Except.noConfusion hok
    · split at hok
      · next e heq =>
          rw [hrun] at heq
          exact Except.noConfusion heq
      · next outcome heq =>
          rw [hrun] at heq
          injection heq with heq
          subst heq
          split at hok
          · next e heq2 =>
              unfold extract_steps at heq2
              dsimp only at heq2
              rw [hhist] at heq2
              exact Except.noConfusion heq2
          · next steps slogs heq2 =>
              unfold extract_steps at heq2
              dsimp only at heq2
              rw [hhist] at heq2
              injection heq2 with heq2
              have hsteps : steps = (hs.enumFrom 1).map (fun p => mk_step_info cfg p.1 p.2) := by
                have := congrArg Prod.fst heq2
                simpa using this.symm
              subst hsteps
              split at hok
              · exact Except.noConfusion hok
              · injection hok with hok
                subst hok
                rfl
  refine ⟨fun j => ?_, fun j => ?_, fun j => ?_⟩ <;>
    · rw [hsteps, List.getElem?_map, List.getElem?_enumFrom]
      cases hx : hs[j]? with
      | none => rfl
      | some s => rfl

/-- Witness for the amended C6: the stored result text of the single
history step is the masked source text. -/
theorem run_task_masks_step_text_witness :
    ((run_task cfgSecret envSteps tA 1).agent_steps[0]?).map StepInfo.result
      = some (mask_sensitive_data cfgSecret (("Clicked SECRETPASS123").data)) := by
  have h := (run_task_masks_step_text cfgSecret envSteps tA 1 ocSteps [stepLeak]
      (run_task cfgSecret envSteps tA 1) (by decide) (by decide) (by decide)).2.1 0
  rw [h]
  decide

/-- Counterexample to C7: with remote execution requested and credentials
missing, the `ValueError` of line 79 is raised inside the `try` block, so
`run_task` catches it and returns a per-task failure `Result` (with no
session acquired and no teardown), and a sequential run of two tasks under
this configuration still yields two Results — the run is not aborted. -/
theorem lambdatest_missing_creds_cex :
    run_task_full cfgLTnoCreds envBase tA 1
      = ({ task_number := 1
           scenario := tA.scenario_name
           category := tA.category
           priority := tA.priority
           prompt := tA.prompt_text
           success := false
           error := some credMsg
           logs := [log_at envBase.errorTime (("ERROR: ").data ++ credMsg),
                    log_at envBase.errorTime (("Status: FAILED - Exception occurred").data)]
           agent_steps := [] }, 0)
    ∧ (run_tasks_sequential (fun m t => run_task cfgLTnoCreds envBase t m) [tA, tA] 0).1.length
        = 2 := by
  constructor
  · decide
  · decide

/-- C7 (amended): the missing-credentials `ValueError` is raised before any
session is acquired (zero teardowns, no acquisition log entries), but it is
caught by `run_task`'s per-task exception handler like any other task-scoped
failure and converted into a per-task `Result` with `success = false` and
the masked message; it does not propagate out of `run_task`, so the run is
not aborted. -/
theorem lambdatest_missing_creds_per_task (cfg : Config) (env : Env)
    (t : TaskInfo) (n : Nat)
    (hu : cfg.USE_LAMBDATEST = true)
    (hcred : cfg.LT_USERNAME = [] ∨ cfg.LT_ACCESS_KEY = []) :
    run_task_full cfg env t n
      = ({ task_number := n
           scenario := t.scenario_name
           category := t.category
           priority := t.priority
           prompt := t.prompt_text
           success := false
           error := some (mask_sensitive_data cfg credMsg)
           logs := [log_at env.errorTime
                      (("ERROR: ").data ++ mask_sensitive_data cfg credMsg),
                    log_at env.errorTime
                      (("Status: FAILED - Exception occurred").data)]
           agent_steps := [] }, 0) := by
  have hc : (cfg.LT_USERNAME.isEmpty || cfg.LT_ACCESS_KEY.isEmpty) = true := by
    rcases hcred with h | h <;> simp [h]
  have hacq : acquire_browser cfg env = ([], .error credMsg) := by
    unfold acquire_browser
    rw [hu]
    simp only [if_true]
    rcases hcred with h | h <;> simp [h]
  unfold run_task_full run_task run_task_attempt browser_acquired
  rw [hacq]
  rfl

/-- Witness for the amended C7. -/
theorem lambdatest_missing_creds_per_task_witness :
    run_task_full cfgLTnoCreds envBase tA 1
      = ({ task_number := 1
           scenario := tA.scenario_name
           category := tA.category
           priority := tA.priority
           prompt := tA.prompt_text
           success := false
           error := some (mask_sensitive_data cfgLTnoCreds credMsg)
           logs := [log_at envBase.errorTime
                      (("ERROR: ").data ++ mask_sensitive_data cfgLTnoCreds credMsg),
                    log_at envBase.errorTime
                      (("Status: FAILED - Exception occurred").data)]
           agent_steps := [] }, 0) :=
  lambdatest_missing_creds_per_task cfgLTnoCreds envBase tA 1 (by decide)
    (Or.inl (by decide))

/-- Unfolding: whitespace consumed. -/
theorem eatWS_cons_pos {c : Char} {t : Str} (h : isWS c = true) :
    eatWS (c :: t) = eatWS t := by
  show (if isWS c then eatWS t else c :: t) = eatWS t
  rw [if_pos h]

/-- Unfolding: non-whitespace stops the scan. -/
theorem eatWS_cons_neg {c : Char} {t : Str} (h : ¬ isWS c = true) :
    eatWS (c :: t) = c :: t := by
  show (if isWS c then eatWS t else c :: t) = c :: t
  rw [if_neg h]

/-- Unfolding: a quote stops the scan. -/
theorem eatNonQuotes_cons_pos {c : Char} {t : Str} (h : c = '"') :
    eatNonQuotes (c :: t) = c :: t := by
  show (if c = '"' then c :: t else eatNonQuotes t) = c :: t
  rw [if_pos h]

/-- Unfolding: a non-quote is consumed. -/
theorem eatNonQuotes_cons_neg {c : Char} {t : Str} (h : ¬ c = '"') :
    eatNonQuotes (c :: t) = eatNonQuotes t := by
  show (if c = '"' then c :: t else eatNonQuotes t) = eatNonQuotes t
  rw [if_neg h]

/-- Unfolding: matching literal head. -/
theorem eatLit_cons_pos {c d : Char} {L t : Str} (h : d = c) :
    eatLit (c :: L) (d :: t) = eatLit L t := by
  show (if d = c then eatLit L t else none) = eatLit L t
  rw [if_pos h]

/-- Unfolding: mismatching literal head. -/
theorem eatLit_cons_neg {c d : Char} {L t : Str} (h : ¬ d = c) :
    eatLit (c :: L) (d :: t) = none := by
  show (if d = c then eatLit L t else none) = none
  rw [if_neg h]

/-- A successful literal consumption splits the input. -/
theorem eatLit_inv : ∀ (L s r : Str), eatLit L s = some r → s = L ++ r := by
  intro L
  induction L with
  | nil =>
      intro s r h
      injection h
  | cons c L ih =>
      intro s r h
      cases s with
      | nil => exact Option.noConfusion h
      | cons d s =>
          unfold eatLit at h
          split at h
          · next hdc =>
              subst hdc
              simp [ih s r h]
          · exact Option.noConfusion h

/-- `eatWS` removes a whitespace prefix. -/
theorem eatWS_split : ∀ s : Str, ∃ w, (∀ c ∈ w, isWS c = true) ∧ s = w ++ eatWS s := by
  intro s
  induction s with
  | nil => exact ⟨[], by simp, rfl⟩
  | cons c t ih =>
      by_cases hc : isWS c
      · obtain ⟨w, hw, he⟩ := ih
        refine ⟨c :: w, ?_, ?_⟩
        · intro d hd
          rcases List.mem_cons.mp hd with h | h
          · rw [h]; exact hc
          · exact hw d h
        · rw [eatWS_cons_pos hc, List.cons_append]
          exact congrArg (List.cons c) he
      · refine ⟨[], by simp, ?_⟩
        rw [eatWS_cons_neg hc]
        rfl

/-- `eatNonQuotes` removes a quote-free prefix. -/
theorem eatNonQuotes_split :
    ∀ s : Str, ∃ q, (∀ c ∈ q, ¬(c = '"')) ∧ s = q ++ eatNonQuotes s := by
  intro s
  induction s with
  | nil => exact ⟨[], by simp, rfl⟩
  | cons c t ih =>
      by_cases hc : c = '"'
      · refine ⟨[], by simp, ?_⟩
        rw [eatNonQuotes_cons_pos hc]
        rfl
      · obtain ⟨q, hq, he⟩ := ih
        refine ⟨c :: q, ?_, ?_⟩
        · intro d hd
          rcases List.mem_cons.mp hd with h | h
          · rw [h]; exact hc
          · exact hq d h
        · rw [eatNonQuotes_cons_neg hc, List.cons_append]
          exact congrArg (List.cons c) he

/-- `eatWS` does not lengthen the input. -/
theorem len_eatWS : ∀ s : Str, (eatWS s).length ≤ s.length := by
  intro s
  induction s with
  | nil => exact le_rfl
  | cons c t ih =>
      by_cases hc : isWS c
      · rw [eatWS_cons_pos hc]
        exact le_trans ih (by simp)
      · rw [eatWS_cons_neg hc]

/-- `eatNonQuotes` does not lengthen the input. -/
theorem len_eatNonQuotes : ∀ s : Str, (eatNonQuotes s).length ≤ s.length := by
  intro s
  induction s with
  | nil => exact le_rfl
  | cons c t ih =>
      by_cases hc : c = '"'
      · rw [eatNonQuotes_cons_pos hc]
      · rw [eatNonQuotes_cons_neg hc]
        exact le_trans ih (by simp)

/-- The rest after the word-dash run is no longer than the input. -/
theorem len_eatWdash : ∀ s : Str, (eatWdash s).2.length ≤ s.length := by
  intro s
  induction s with
  | nil => exact le_rfl
  | cons c t ih =>
      show ((if isWdash c then
               let p := eatWdash t
               (p.1 + 1, p.2)
             else (0, c :: t)) : Nat × Str).2.length ≤ _
      by_cases hc : isWdash c
      · rw [if_pos hc]
        exact le_trans ih (by simp)
      · rw [if_neg hc]

/-- The literal state of the accessKey automaton agrees with `eatLit`. -/
theorem m3run_lit_eq : ∀ (L : Str), L ≠ [] → ∀ (s : Str),
    m3run (.lit L) s
      = (match eatLit L s with | some r => m3run .wsColon r | none => none) := by
  intro L
  induction L with
  | nil => intro h; exact absurd rfl h
  | cons c L ih =>
      intro _ s
      cases s with
      | nil => rfl
      | cons d t =>
          show (if d = c then _ else none) = _
          by_cases hdc : d = c
          · rw [if_pos hdc, eatLit_cons_pos hdc]
            show (match L with
                  | [] => m3run .wsColon t
                  | _ :: _ => m3run (.lit L) t) = _
            cases L with
            | nil => rfl
            | cons c2 L2 => exact ih (by simp) t
          · rw [if_neg hdc, eatLit_cons_neg hdc]

/-- The pre-colon whitespace state agrees with `eatWS`. -/
theorem m3run_wsColon_eq : ∀ s : Str,
    m3run .wsColon s
      = (match eatWS s with
         | c :: s3 => if c = ':' then m3run .wsQuote s3 else none
         | [] => none) := by
  intro s
  induction s with
  | nil => rfl
  | cons c t ih =>
      show (if isWS c then m3run .wsColon t
            else if c = ':' then m3run .wsQuote t else none) = _
      by_cases hc : isWS c
      · rw [if_pos hc, eatWS_cons_pos hc]
        exact ih
      · rw [if_neg hc, eatWS_cons_neg hc]

/-- The pre-quote whitespace state agrees with `eatWS`. -/
theorem m3run_wsQuote_eq : ∀ s : Str,
    m3run .wsQuote s
      = (match eatWS s with
         | c :: s5 => if c = '"' then m3run .nonq s5 else none
         | [] => none) := by
  intro s
  induction s with
  | nil => rfl
  | cons c t ih =>
      show (if isWS c then m3run .wsQuote t
            else if c = '"' then m3run .nonq t else none) = _
      by_cases hc : isWS c
      · rw [if_pos hc, eatWS_cons_pos hc]
        exact ih
      · rw [if_neg hc, eatWS_cons_neg hc]

/-- The value-scanning state agrees with `eatNonQuotes`. -/
theorem m3run_nonq_eq : ∀ s : Str,
    m3run .nonq s
      = (match eatNonQuotes s with
         | c :: s7 => if c = '"' then some s7 else none
         | [] => none) := by
  intro s
  induction s with
  | nil => rfl
  | cons c t ih =>
      show (if c = '"' then some t else m3run .nonq t) = _
      by_cases hc : c = '"'
      · rw [if_pos hc, eatNonQuotes_cons_pos hc]
        show some t = if c = '"' then some t else none
        rw [if_pos hc]
      · rw [if_neg hc, eatNonQuotes_cons_neg hc]
        exact ih

/-- The value part of the matcher equals the automaton's value state. -/
theorem step3_nonq_eq (s5 : Str) :
    (match eatNonQuotes s5 with | '"' :: s7 => some s7 | _ => none)
      = m3run .nonq s5 := by
  rw [m3run_nonq_eq s5]
  cases h : eatNonQuotes s5 with
  | nil => rfl
  | cons e s7 =>
      by_cases he : e = '"'
      · subst he
        show some s7 = if ('"' : Char) = '"' then some s7 else none
        rw [if_pos rfl]
      · show (match (e :: s7 : Str) with | '"' :: z => some z | _ => none)
            = if e = '"' then some s7 else none
        rw [if_neg he]
        split
        · next heq =>
            injection heq with ha _
            exact absurd ha he
        · rfl

/-- The quote-then-value part of the matcher equals the automaton's
pre-quote state. -/
theorem step3_wsQuote_eq (s3 : Str) :
    (match eatWS s3 with
     | '"' :: s5 => (match eatNonQuotes s5 with | '"' :: s7 => some s7 | _ => none)
     | _ => none)
      = m3run .wsQuote s3 := by
  rw [m3run_wsQuote_eq s3]
  cases h : eatWS s3 with
  | nil => rfl
  | cons d s5 =>
      by_cases hd : d = '"'
      · subst hd
        show (match eatNonQuotes s5 with | '"' :: s7 => some s7 | _ => none)
            = if ('"' : Char) = '"' then m3run .nonq s5 else none
        rw [if_pos rfl]
        exact step3_nonq_eq s5
      · show (match (d :: s5 : Str) with
              | '"' :: z => (match eatNonQuotes z with | '"' :: s7 => some s7 | _ => none)
              | _ => none)
            = if d = '"' then m3run .nonq s5 else none
        rw [if_neg hd]
        split
        · next heq =>
            injection heq with ha _
            exact absurd ha hd
        · rfl

/-- The colon-then-value part of the matcher equals the automaton's
pre-colon state. -/
theorem step3_wsColon_eq (s1 : Str) :
    (match eatWS s1 with
     | ':' :: s3 =>
       (match eatWS s3 with
        | '"' :: s5 => (match eatNonQuotes s5 with | '"' :: s7 => some s7 | _ => none)
        | _ => none)
     | _ => none)
      = m3run .wsColon s1 := by
  rw [m3run_wsColon_eq s1]
  cases h : eatWS s1 with
  | nil => rfl
  | cons c s3 =>
      by_cases hc : c = ':'
      · subst hc
        show (match eatWS s3 with
              | '"' :: s5 => (match eatNonQuotes s5 with | '"' :: s7 => some s7 | _ => none)
              | _ => none)
            = if (':' : Char) = ':' then m3run .wsQuote s3 else none
        rw [if_pos rfl]
        exact step3_wsQuote_eq s3
      · show (match (c :: s3 : Str) with
              | ':' :: z =>
                (match eatWS z with
                 | '"' :: s5 => (match eatNonQuotes s5 with | '"' :: s7 => some s7 | _ => none)
                 | _ => none)
              | _ => none)
            = if c = ':' then m3run .wsQuote s3 else none
        rw [if_neg hc]
        split
        · next heq =>
            injection heq with ha _
            exact absurd ha hc
        · rfl

/-- The accessKey regex matcher equals the automaton started at the
literal. -/
theorem match3_eq_m3run : ∀ s : Str, match3 s = m3run (.lit lit3) s := by
  intro s
  rw [m3run_lit_eq lit3 (by decide) s]
  unfold match3
  cases h1 : eatLit lit3 s with
  | none => rfl
  | some s1 =>
      show (match eatWS s1 with
            | ':' :: s3 =>
              (match eatWS s3 with
               | '"' :: s5 => (match eatNonQuotes s5 with | '"' :: s7 => some s7 | _ => none)
               | _ => none)
            | _ => none)
          = m3run .wsColon s1
      exact step3_wsColon_eq s1

/-- Unfolding equations of `m3run` on a cons cell. -/
theorem m3run_lit_nil_cons (c : Char) (t : Str) :
    m3run (.lit []) (c :: t) = none := rfl

theorem m3run_lit_cons_cons (d : Char) (L' : Str) (c : Char) (t : Str) :
    m3run (.lit (d :: L')) (c :: t)
      = if c = d then
          (match L' with
           | [] => m3run .wsColon t
           | _ :: _ => m3run (.lit L') t)
        else none := rfl

theorem m3run_wsColon_cons (c : Char) (t : Str) :
    m3run .wsColon (c :: t)
      = if isWS c then m3run .wsColon t
        else if c = ':' then m3run .wsQuote t else none := rfl

theorem m3run_wsQuote_cons (c : Char) (t : Str) :
    m3run .wsQuote (c :: t)
      = if isWS c then m3run .wsQuote t
        else if c = '"' then m3run .nonq t else none := rfl

theorem m3run_nonq_cons (c : Char) (t : Str) :
    m3run .nonq (c :: t) = if c = '"' then some t else m3run .nonq t := rfl

/-- A whitespace character is not a quote. -/
theorem ws_ne_quote : ∀ c : Char, isWS c = true → ¬ c = '"' := by
  intro c h hc
  rw [hc] at h
  exact absurd h (by decide)

/-- A whitespace character is not a colon. -/
theorem ws_ne_colon : ∀ c : Char, isWS c = true → ¬ c = ':' := by
  intro c h hc
  rw [hc] at h
  exact absurd h (by decide)

/-- The pre-colon state skips whitespace. -/
theorem m3run_wsColon_skip (w : Str) (hw : ∀ c ∈ w, isWS c = true) (z : Str) :
    m3run .wsColon (w ++ z) = m3run .wsColon z := by
  induction w with
  | nil => rfl
  | cons c w ih =>
      rw [List.cons_append, m3run_wsColon_cons,
        if_pos (hw c (by simp))]
      exact ih (fun d hd => hw d (by simp [hd]))

/-- The pre-quote state skips whitespace. -/
theorem m3run_wsQuote_skip (w : Str) (hw : ∀ c ∈ w, isWS c = true) (z : Str) :
    m3run .wsQuote (w ++ z) = m3run .wsQuote z := by
  induction w with
  | nil => rfl
  | cons c w ih =>
      rw [List.cons_append, m3run_wsQuote_cons,
        if_pos (hw c (by simp))]
      exact ih (fun d hd => hw d (by simp [hd]))

/-- The value state scans over quote-free text to the next quote. -/
theorem m3run_nonq_quotefree (A : Str) (hA : ∀ c ∈ A, ¬ c = '"') (z : Str) :
    m3run .nonq (A ++ '"' :: z) = some z := by
  induction A with
  | nil =>
      rw [List.nil_append, m3run_nonq_cons, if_pos rfl]
  | cons c A ih =>
      rw [List.cons_append, m3run_nonq_cons, if_neg (hA c (by simp))]
      exact ih (fun d hd => hA d (by simp [hd]))

/-- Decomposition of a successful accessKey match. -/
theorem match3_decomp {s r : Str} (h : match3 s = some r) :
    ∃ w1 w2 q, s = lit3 ++ (w1 ++ ':' :: (w2 ++ '"' :: (q ++ '"' :: r)))
      ∧ (∀ c ∈ w1, isWS c = true) ∧ (∀ c ∈ w2, isWS c = true)
      ∧ (∀ c ∈ q, ¬(c = '"')) := by
  unfold match3 at h
  split at h
  · exact Option.noConfusion h
  · next s1 heq1 =>
      split at h
      · next s3 heq2 =>
          split at h
          · next s5 heq3 =>
              split at h
              · next s7 heq4 =>
                  injection h with h
                  subst h
                  obtain ⟨w1, hw1, he1⟩ := eatWS_split s1
                  rw [heq2] at he1
                  obtain ⟨w2, hw2, he2⟩ := eatWS_split s3
                  rw [heq3] at he2
                  obtain ⟨q, hq, he3⟩ := eatNonQuotes_split s5
                  rw [heq4] at he3
                  refine ⟨w1, w2, q, ?_, hw1, hw2, hq⟩
                  rw [eatLit_inv lit3 s s1 heq1, he1, he2, he3]
              · exact Option.noConfusion h
          · exact Option.noConfusion h
      · exact Option.noConfusion h

/-- A match consumes at least one character. -/
theorem match3_some_length {s r : Str} (h : match3 s = some r) :
    r.length < s.length := by
  obtain ⟨w1, w2, q, hs, _, _, _⟩ := match3_decomp h
  rw [hs]
  simp [List.length_append, lit3]
  omega

/-- The `sub3` scan does not depend on the fuel once it covers the
length. -/
theorem sub3go_irrel :
    ∀ (fuel fuel' : Nat) (s : Str), s.length ≤ fuel → s.length ≤ fuel' →
      sub3go fuel s = sub3go fuel' s := by
  intro fuel
  induction fuel using Nat.strong_induction_on with
  | _ fuel ih =>
    intro fuel' s h h'
    cases s with
    | nil => cases fuel <;> cases fuel' <;> rfl
    | cons c t =>
        cases fuel with
        | zero => simp at h
        | succ f =>
            cases fuel' with
            | zero => simp at h'
            | succ f' =>
                show (match match3 (c :: t) with
                      | some rest => repl3 ++ sub3go f rest
                      | none => c :: sub3go f t)
                    = (match match3 (c :: t) with
                      | some rest => repl3 ++ sub3go f' rest
                      | none => c :: sub3go f' t)
                cases hm : match3 (c :: t) with
                | some rest =>
                    have hr : rest.length ≤ f ∧ rest.length ≤ f' := by
                      have := match3_some_length hm
                      simp at h h' this
                      omega
                    show repl3 ++ sub3go f rest = repl3 ++ sub3go f' rest
                    rw [ih f (Nat.lt_succ_self f) f' rest hr.1 hr.2]
                | none =>
                    show c :: sub3go f t = c :: sub3go f' t
                    rw [ih f (Nat.lt_succ_self f) f' t (by simp at h ⊢; omega)
                      (by simp at h' ⊢; omega)]

/-- Unfolding of `sub3` at a match. -/
theorem sub3_eq_match {s r : Str} (hm : match3 s = some r) :
    sub3 s = repl3 ++ sub3 r := by
  cases s with
  | nil => exact Option.noConfusion (show (none : Option Str) = some r from hm)
  | cons c t =>
      show (match match3 (c :: t) with
            | some rest => repl3 ++ sub3go t.length rest
            | none => c :: sub3go t.length t) = repl3 ++ sub3 r
      rw [hm]
      show repl3 ++ sub3go t.length r = _
      rw [sub3go_irrel t.length r.length r
        (by have := match3_some_length hm; simp at this; omega) le_rfl]
      rfl

/-- Unfolding of `sub3` at a non-match. -/
theorem sub3_eq_nomatch {c : Char} {t : Str} (hm : match3 (c :: t) = none) :
    sub3 (c :: t) = c :: sub3 t := by
  show (match match3 (c :: t) with
        | some rest => repl3 ++ sub3go t.length rest
        | none => c :: sub3go t.length t) = c :: sub3 t
  rw [hm]
  rfl

/-- `sub3` realizes the edit relation. -/
theorem rel3_sub3 : ∀ s : Str, Rel3 s (sub3 s) := by
  have main : ∀ (n : Nat) (s : Str), s.length ≤ n → Rel3 s (sub3 s) := by
    intro n
    induction n with
    | zero =>
        intro s h
        have : s = [] := List.eq_nil_of_length_eq_zero (Nat.le_zero.mp h)
        subst this
        exact Rel3.nil
    | succ m ih =>
        intro s h
        cases s with
        | nil => exact Rel3.nil
        | cons c t =>
            cases hm : match3 (c :: t) with
            | some r =>
                rw [sub3_eq_match hm]
                refine Rel3.repl hm (ih r ?_)
                have := match3_some_length hm
                simp at h this
                omega
            | none =>
                rw [sub3_eq_nomatch hm]
                refine Rel3.skip c (ih t ?_)
                simp at h
                omega
  exact fun s => main s.length s le_rfl

/-- Failure of the accessKey automaton is preserved along a common prefix
whenever it is preserved at the boundary. -/
theorem m3run_boundary : ∀ (A : Str) (σ : St3) {x y : Str}, Good3 σ →
    (∀ τ : St3, Good3 τ → m3run τ x = none → m3run τ y = none) →
    m3run σ (A ++ x) = none → m3run σ (A ++ y) = none := by
  intro A
  induction A with
  | nil =>
      intro σ x y hσ hbase h
      exact hbase σ hσ h
  | cons c A' ih =>
      intro σ x y hσ hbase h
      rw [List.cons_append] at h ⊢
      cases σ with
      | lit L =>
          cases L with
          | nil => exact m3run_lit_nil_cons c (A' ++ y)
          | cons d L' =>
              rw [m3run_lit_cons_cons d L' c (A' ++ y)]
              rw [m3run_lit_cons_cons d L' c (A' ++ x)] at h
              by_cases hcd : c = d
              · rw [if_pos hcd] at h ⊢
                obtain ⟨k, hk⟩ := hσ
                have hGL' : Good3 (St3.lit L') := by
                  refine ⟨k + 1, ?_⟩
                  rw [← List.drop_drop, ← hk]
                  rfl
                cases L' with
                | nil => exact ih .wsColon trivial hbase h
                | cons e L2 => exact ih (.lit (e :: L2)) hGL' hbase h
              · rw [if_neg hcd]
      | wsColon =>
          rw [m3run_wsColon_cons] at h ⊢
          by_cases hws : isWS c
          · rw [if_pos hws] at h ⊢
            exact ih .wsColon trivial hbase h
          · rw [if_neg hws] at h ⊢
            by_cases hcol : c = ':'
            · rw [if_pos hcol] at h ⊢
              exact ih .wsQuote trivial hbase h
            · rw [if_neg hcol]
      | wsQuote =>
          rw [m3run_wsQuote_cons] at h ⊢
          by_cases hws : isWS c
          · rw [if_pos hws] at h ⊢
            exact ih .wsQuote trivial hbase h
          · rw [if_neg hws] at h ⊢
            by_cases hq : c = '"'
            · rw [if_pos hq] at h ⊢
              exact ih .nonq trivial hbase h
            · rw [if_neg hq]
      | nonq =>
          rw [m3run_nonq_cons] at h ⊢
          by_cases hq : c = '"'
          · rw [if_pos hq] at h
            exact absurd h (by simp)
          · rw [if_neg hq] at h ⊢
            exact ih .nonq trivial hbase h

/-- No suffix of the accessKey literal starts with a colon. -/
theorem lit3_drop_no_colon : ∀ k : Nat, ¬ (lit3.drop k).head? = some ':' := by
  intro k h
  by_cases hk : k < 11
  · interval_cases k <;> exact absurd h (by decide)
  · have h11 : lit3.length = 11 := by decide
    have hle : lit3.length ≤ k := by omega
    rw [List.drop_eq_nil_of_le hle] at h
    exact Option.noConfusion h

/-- The masked replacement begins with the accessKey literal followed by
the masked suffix. -/
theorem repl3_split : lit3 ++ mid3 = repl3 := by decide

/-- `mid3` starts with a colon. -/
theorem mid3_cons : mid3 = ':' :: ((" \"***MASKED***\"").data) := by decide

/-- The replacement text again matches the accessKey pattern at its head,
with the remainder untouched. -/
theorem match3_repl3 (y : Str) : match3 (repl3 ++ y) = some y := rfl

/-- Failure of the accessKey automaton from any reachable position is
preserved by one substitution edit. -/
theorem sim3 {t u : Str} (rel : Rel3 t u) :
    ∀ σ : St3, Good3 σ → m3run σ t = none → m3run σ u = none := by
  induction rel with
  | nil =>
      intro σ _ h
      exact h
  | skip c r ih =>
      intro σ hσ h
      exact m3run_boundary [c] σ hσ ih h
  | repl hm r ih =>
      next s rr u0 =>
      intro σ hσ h
      obtain ⟨w1, w2, q, hs, hw1, hw2, hq⟩ := match3_decomp hm
      have hrepl : (repl3 ++ u0 : Str) = lit3 ++ (mid3 ++ u0) := by
        rw [← List.append_assoc, repl3_split]
      rw [hrepl]
      rw [hs] at h
      refine m3run_boundary lit3 σ hσ ?_ h
      intro τ hτ hn
      have hcolonNotWS : ¬ isWS ':' = true := by decide
      have hquoteNotWS : ¬ isWS '"' = true := by decide
      have hcc : (':' : Char) = ':' := rfl
      have hqq : ('"' : Char) = '"' := rfl
      cases τ with
      | lit L =>
          obtain ⟨k, hk⟩ := hτ
          cases L with
          | nil =>
              rw [mid3_cons, List.cons_append]
              exact m3run_lit_nil_cons ':' _
          | cons d L' =>
              have hhead : (lit3.drop k).head? = some d := by rw [← hk]; rfl
              have hd : ¬ (':' : Char) = d := by
                intro hcontra
                rw [← hcontra] at hhead
                exact lit3_drop_no_colon k hhead
              rw [mid3_cons, List.cons_append, m3run_lit_cons_cons, if_neg hd]
      | wsColon =>
          exfalso
          rw [m3run_wsColon_skip w1 hw1, m3run_wsColon_cons,
            if_neg hcolonNotWS, if_pos hcc,
            m3run_wsQuote_skip w2 hw2, m3run_wsQuote_cons,
            if_neg hquoteNotWS, if_pos hqq,
            m3run_nonq_quotefree q hq rr] at hn
          exact Option.noConfusion hn
      | wsQuote =>
          rw [mid3_cons, List.cons_append, m3run_wsQuote_cons,
            if_neg hcolonNotWS, if_neg (by decide)]
      | nonq =>
          exfalso
          have hassoc : w1 ++ ':' :: (w2 ++ '"' :: (q ++ '"' :: rr))
              = (w1 ++ ':' :: w2) ++ '"' :: (q ++ '"' :: rr) := by simp
          rw [hassoc] at hn
          have hA : ∀ c ∈ w1 ++ ':' :: w2, ¬ c = '"' := by
            intro c hc
            rcases List.mem_append.mp hc with h1 | h2
            · exact ws_ne_quote c (hw1 c h1)
            · rcases List.mem_cons.mp h2 with h3 | h4
              · rw [h3]; decide
              · exact ws_ne_quote c (hw2 c h4)
          rw [m3run_nonq_quotefree _ hA _] at hn
          exact Option.noConfusion hn

/-- The accessKey substitution pass is idempotent. -/
theorem sub3_idem : ∀ s : Str, sub3 (sub3 s) = sub3 s := by
  have main : ∀ (n : Nat) (s : Str), s.length ≤ n → sub3 (sub3 s) = sub3 s := by
    intro n
    induction n with
    | zero =>
        intro s h
        have hnil : s = [] := List.eq_nil_of_length_eq_zero (Nat.le_zero.mp h)
        subst hnil
        rfl
    | succ m ih =>
        intro s h
        cases s with
        | nil => rfl
        | cons c t =>
            cases hm : match3 (c :: t) with
            | some r =>
                have hlen : r.length ≤ m := by
                  have := match3_some_length hm
                  simp at h this
                  omega
                rw [sub3_eq_match hm, sub3_eq_match (match3_repl3 (sub3 r)),
                  ih r hlen]
            | none =>
                have hlen : t.length ≤ m := by
                  simp at h
                  omega
                have hm2 : match3 (c :: sub3 t) = none := by
                  rw [match3_eq_m3run]
                  rw [match3_eq_m3run] at hm
                  exact sim3 (Rel3.skip c (rel3_sub3 t)) (St3.lit lit3) ⟨0, rfl⟩ hm
                rw [sub3_eq_nomatch hm, sub3_eq_nomatch hm2, ih t hlen]
  exact fun s => main s.length s le_rfl

/-- Unfolding: case-insensitive literal, matching head. -/
theorem eatLitCI_cons_pos {c d : Char} {L t : Str} (h : lowC d = c) :
    eatLitCI (c :: L) (d :: t) = eatLitCI L t := by
  show (if lowC d = c then eatLitCI L t else none) = eatLitCI L t
  rw [if_pos h]

/-- Unfolding: case-insensitive literal, mismatching head. -/
theorem eatLitCI_cons_neg {c d : Char} {L t : Str} (h : ¬ lowC d = c) :
    eatLitCI (c :: L) (d :: t) = none := by
  show (if lowC d = c then eatLitCI L t else none) = none
  rw [if_neg h]

/-- A word-run character extends the `[\w-]` count by one. -/
theorem eatWdash_fst_pos (d : Char) (t : Str) (h : isWdash d = true) :
    (eatWdash (d :: t)).1 = (eatWdash t).1 + 1 := by
  show ((if isWdash d then
           ((eatWdash t).1 + 1, (eatWdash t).2)
         else (0, d :: t)) : Nat × Str).1 = _
  rw [if_pos h]

/-- A non-`[\w-]` character stops the run at zero. -/
theorem eatWdash_fst_neg (d : Char) (t : Str) (h : ¬ isWdash d = true) :
    (eatWdash (d :: t)).1 = 0 := by
  show ((if isWdash d then
           ((eatWdash t).1 + 1, (eatWdash t).2)
         else (0, d :: t)) : Nat × Str).1 = _
  rw [if_neg h]

/-- Unfolding equations of `m4run` on a cons cell. -/
theorem m4run_api_nil_cons (d : Char) (t : Str) :
    m4run (.api []) (d :: t) = false := rfl

theorem m4run_api_cons_cons (c : Char) (L' : Str) (d : Char) (t : Str) :
    m4run (.api (c :: L')) (d :: t)
      = if lowC d = c then
          (match L' with
           | [] => m4run .sep t
           | _ :: _ => m4run (.api L') t)
        else false := rfl

theorem m4run_sep_cons (d : Char) (t : Str) :
    m4run .sep (d :: t)
      = if d = '_' || d = '-' then m4run (.key3 (("key").data)) t
        else if lowC d = 'k' then m4run (.key3 (("ey").data)) t
        else false := rfl

theorem m4run_key3_cons_cons (c : Char) (L' : Str) (d : Char) (t : Str) :
    m4run (.key3 (c :: L')) (d :: t)
      = if lowC d = c then
          (match L' with
           | [] => m4run .wsSep t
           | _ :: _ => m4run (.key3 L') t)
        else false := rfl

theorem m4run_wsSep_cons (d : Char) (t : Str) :
    m4run .wsSep (d :: t)
      = if isWS d then m4run .wsSep t
        else if d = ':' || d = '=' then m4run .wsVal t
        else false := rfl

theorem m4run_wsVal_cons (d : Char) (t : Str) :
    m4run .wsVal (d :: t)
      = if isWS d then m4run .wsVal t
        else if d = '"' || d = '\'' then m4run (.run 0) t
        else if isWdash d then m4run (.run 1) t
        else false := rfl

theorem m4run_run_cons (n : Nat) (d : Char) (t : Str) :
    m4run (.run n) (d :: t)
      = if isWdash d then m4run (.run (n + 1)) t else decide (20 ≤ n) := rfl

theorem m4run_run_nil (n : Nat) : m4run (.run n) [] = decide (20 ≤ n) := rfl

/-- The run state accepts exactly when the pending count plus the
remaining `[\w-]` run reaches 20. -/
theorem m4run_run_eq : ∀ (s : Str) (n : Nat),
    m4run (.run n) s = decide (20 ≤ n + (eatWdash s).1) := by
  intro s
  induction s with
  | nil =>
      intro n
      show decide (20 ≤ n) = decide (20 ≤ n + (eatWdash ([] : Str)).1)
      rw [show (eatWdash ([] : Str)).1 = 0 from rfl, Nat.add_zero]
  | cons d t ih =>
      intro n
      rw [m4run_run_cons]
      by_cases hwd : isWdash d
      · rw [if_pos hwd, ih (n + 1), eatWdash_fst_pos d t hwd]
        have harith : n + 1 + (eatWdash t).1 = n + ((eatWdash t).1 + 1) := by
          omega
        rw [harith]
      · rw [if_neg hwd, eatWdash_fst_neg d t hwd, Nat.add_zero]

/-- The pre-separator state agrees with `eatWS` and the `[:=]` test. -/
theorem m4run_wsSep_eq : ∀ s : Str,
    m4run .wsSep s
      = (match eatWS s with
         | c :: u2 => if c = ':' || c = '=' then m4run .wsVal u2 else false
         | [] => false) := by
  intro s
  induction s with
  | nil => rfl
  | cons d t ih =>
      rw [m4run_wsSep_cons]
      by_cases hws : isWS d
      · rw [if_pos hws, eatWS_cons_pos hws]
        exact ih
      · rw [if_neg hws, eatWS_cons_neg hws]

/-- The value state agrees with the whitespace/quote/run computation of
the matcher. -/
theorem m4run_wsVal_eq : ∀ s : Str,
    m4run .wsVal s
      = decide (20 ≤ (eatWdash (match eatWS s with
          | q :: r => if q = '"' || q = '\'' then r else eatWS s
          | [] => [])).1) := by
  intro s
  induction s with
  | nil => rfl
  | cons d t ih =>
      rw [m4run_wsVal_cons]
      by_cases hws : isWS d
      · rw [if_pos hws, eatWS_cons_pos hws]
        exact ih
      · rw [if_neg hws, eatWS_cons_neg hws]
        by_cases hq : (d = '"' || d = '\'' : Bool) = true
        · rw [if_pos hq, m4run_run_eq t 0]
          dsimp only
          rw [if_pos hq, Nat.zero_add]
        · rw [if_neg hq]
          dsimp only
          rw [if_neg hq]
          by_cases hwd : isWdash d
          · rw [if_pos hwd, m4run_run_eq t 1, eatWdash_fst_pos d t hwd]
            have harith : 1 + (eatWdash t).1 = (eatWdash t).1 + 1 := by omega
            rw [harith]
          · rw [if_neg hwd, eatWdash_fst_neg d t hwd]
            rfl

/-- The api-literal state agrees with `eatLitCI`. -/
theorem m4run_api_eq : ∀ (L : Str), L ≠ [] → ∀ s : Str,
    m4run (.api L) s
      = (match eatLitCI L s with | some r => m4run .sep r | none => false) := by
  intro L
  induction L with
  | nil => intro h; exact absurd rfl h
  | cons c L ih =>
      intro _ s
      cases s with
      | nil => rfl
      | cons d t =>
          rw [m4run_api_cons_cons]
          by_cases hdc : lowC d = c
          · rw [if_pos hdc, eatLitCI_cons_pos hdc]
            cases L with
            | nil => rfl
            | cons c2 L2 => exact ih (by simp) t
          · rw [if_neg hdc, eatLitCI_cons_neg hdc]

/-- The key-literal state agrees with `eatLitCI`. -/
theorem m4run_key3_eq : ∀ (L : Str), L ≠ [] → ∀ s : Str,
    m4run (.key3 L) s
      = (match eatLitCI L s with | some r => m4run .wsSep r | none => false) := by
  intro L
  induction L with
  | nil => intro h; exact absurd rfl h
  | cons c L ih =>
      intro _ s
      cases s with
      | nil => rfl
      | cons d t =>
          rw [m4run_key3_cons_cons]
          by_cases hdc : lowC d = c
          · rw [if_pos hdc, eatLitCI_cons_pos hdc]
            cases L with
            | nil => rfl
            | cons c2 L2 => exact ih (by simp) t
          · rw [if_neg hdc, eatLitCI_cons_neg hdc]

/-- A separator character cannot begin the `key` literal. -/
theorem key_after_sep (c : Char) (h : (c = '_' || c = '-' : Bool) = true)
    (s2 : Str) : eatLitCI ('k' :: 'e' :: 'y' :: []) (c :: s2) = none := by
  have hck : ¬ lowC c = 'k' := by
    intro hk
    simp only [Bool.or_eq_true, decide_eq_true_eq] at h
    rcases h with h1 | h1 <;> rw [h1] at hk <;> exact absurd hk (by decide)
  exact eatLitCI_cons_neg hck

/-- The automaton started at the api literal equals `match4key` continued
into the pre-separator state. -/
theorem m4key_eq : ∀ s : Str,
    m4run (.api (("api").data)) s
      = (match match4key s with | some sk => m4run .wsSep sk | none => false) := by
  intro s
  rw [m4run_api_eq (("api").data) (by decide) s]
  unfold match4key
  cases ha : eatLitCI (("api").data) s with
  | none => rfl
  | some s1 =>
      dsimp only
      cases s1 with
      | nil => rfl
      | cons c s2 =>
          dsimp only
          rw [m4run_sep_cons,
            show (("key").data : Str) = 'k' :: 'e' :: 'y' :: [] from by decide,
            show (("ey").data : Str) = 'e' :: 'y' :: [] from by decide]
          by_cases hsep : (c = '_' || c = '-' : Bool) = true
          · rw [if_pos hsep, if_pos hsep,
              m4run_key3_eq ('k' :: 'e' :: 'y' :: []) (by decide) s2]
            cases hb : eatLitCI (('k' :: 'e' :: 'y' :: [] : Str)) s2 with
            | some s3 => rfl
            | none =>
                rw [key_after_sep c hsep s2]
          · rw [if_neg hsep, if_neg hsep]
            by_cases hck : lowC c = 'k'
            · rw [if_pos hck, eatLitCI_cons_pos hck,
                m4run_key3_eq ('e' :: 'y' :: []) (by decide) s2]
            · rw [if_neg hck, eatLitCI_cons_neg hck]

/-- The API-key matcher succeeds exactly when the automaton accepts. -/
theorem match4_isSome_eq : ∀ s : Str,
    (match4 s).isSome = m4run (.api (("api").data)) s := by
  intro s
  rw [m4key_eq s]
  unfold match4
  cases hk : match4key s with
  | none => rfl
  | some sk =>
      dsimp only
      rw [m4run_wsSep_eq sk]
      cases he : eatWS sk with
      | nil => rfl
      | cons c u2 =>
          dsimp only
          by_cases hce : (c = ':' || c = '=' : Bool) = true
          · rw [if_pos hce, if_pos hce, m4run_wsVal_eq u2]
            split
            · next h20 => exact (decide_eq_true h20).symm
            · next h20 => exact (decide_eq_false h20).symm
          · rw [if_neg hce, if_neg hce]
            rfl

/-- A rejected automaton run means no match. -/
theorem match4_none_of_false {s : Str}
    (h : m4run (.api (("api").data)) s = false) : match4 s = none := by
  have heq := match4_isSome_eq s
  rw [h] at heq
  cases ho : match4 s with
  | none => rfl
  | some v =>
      rw [ho] at heq
      exact Bool.noConfusion heq

/-- A match means an accepting automaton run. -/
theorem m4run_true_of_some {s : Str} {v : Str × Str}
    (h : match4 s = some v) : m4run (.api (("api").data)) s = true := by
  have heq := match4_isSome_eq s
  rw [h] at heq
  exact heq.symm

/-- A rejecting automaton run from the start state refutes any match. -/
theorem match4_none_iff (s : Str) :
    match4 s = none ↔ m4run (.api (("api").data)) s = false := by
  constructor
  · intro h
    have heq := match4_isSome_eq s
    rw [h] at heq
    exact heq.symm
  · exact match4_none_of_false

/-- A whitespace character is not in `[\w-]`. -/
theorem ws_not_wdash (d : Char) (h : isWS d = true) : ¬ isWdash d = true := by
  intro hw
  simp only [isWS, Bool.or_eq_true, decide_eq_true_eq] at h
  rcases h with ((((h1 | h1) | h1) | h1) | h1) | h1 <;> subst h1 <;>
    exact absurd hw (by decide)

/-- Stripping an optional quote does not lengthen the text. -/
theorem strip_quote_len (v : Str) :
    (match v with
     | q :: r2 => if q = '"' || q = '\'' then r2 else v
     | [] => ([] : Str)).length ≤ v.length := by
  cases v with
  | nil => exact le_rfl
  | cons q r2 =>
      dsimp only
      by_cases hq : (q = '"' || q = '\'' : Bool) = true
      · rw [if_pos hq]
        simp
      · rw [if_neg hq]

/-- A successful case-insensitive literal consumption splits the input. -/
theorem eatLitCI_inv : ∀ (L s r : Str),
    eatLitCI L s = some r → ∃ p, s = p ++ r ∧ pyLower p = L := by
  intro L
  induction L with
  | nil =>
      intro s r h
      injection h with h
      exact ⟨[], by simp [h], rfl⟩
  | cons c L ih =>
      intro s r h
      cases s with
      | nil => exact Option.noConfusion h
      | cons d t =>
          unfold eatLitCI at h
          split at h
          · next hdc =>
              obtain ⟨p, hsp, hlow⟩ := ih t r h
              refine ⟨d :: p, by rw [List.cons_append, hsp], ?_⟩
              show lowC d :: pyLower p = c :: L
              rw [hdc, hlow]
          · exact Option.noConfusion h

/-- A successful `match4key` splits the input into a key of the captured
shape and the rest. -/
theorem match4key_decomp {s sk : Str} (h : match4key s = some sk) :
    ∃ P, s = P ++ sk ∧ CapForm P := by
  unfold match4key at h
  split at h
  · exact Option.noConfusion h
  · next s1 ha =>
      obtain ⟨p1, hsp1, hp1low⟩ := eatLitCI_inv (("api").data) s s1 ha
      rw [show (("api").data : Str) = 'a' :: 'p' :: 'i' :: [] from by decide]
        at hp1low
      cases s1 with
      | nil => exact Option.noConfusion h
      | cons c s2 =>
          dsimp only at h
          split at h
          · next hsep =>
              split at h
              · next s3 hb =>
                  injection h with h
                  subst h
                  obtain ⟨p2, hsp2, hp2low⟩ := eatLitCI_inv _ s2 s3 hb
                  refine ⟨p1 ++ ([c] ++ p2), ?_, ?_⟩
                  · rw [hsp1, hsp2]
                    simp
                  · refine ⟨p1, [c], p2, by simp, hp1low, ?_, Or.inr ⟨c, rfl, hsep⟩⟩
                    rw [hp2low]
              · next hb =>
                  rw [key_after_sep c hsep s2] at h
                  exact Option.noConfusion h
          · next hsep =>
              obtain ⟨p2, hsp2, hp2low⟩ := eatLitCI_inv _ (c :: s2) sk h
              refine ⟨p1 ++ p2, ?_, ?_⟩
              · rw [hsp1, hsp2]
                simp
              · refine ⟨p1, [], p2, by simp, hp1low, ?_, Or.inl rfl⟩
                rw [hp2low]

/-- Decomposition of a successful API-key match: the input splits into the
captured key and a rest that the automaton accepts from the pre-separator
state, starts with no `[\w-]` run, and strictly contains the returned
remainder. -/
theorem match4_decomp {s cap r : Str} (h : match4 s = some (cap, r)) :
    ∃ sk, s = cap ++ sk ∧ CapForm cap ∧ m4run .wsSep sk = true
      ∧ (eatWdash sk).1 = 0 ∧ r.length < s.length := by
  have h0 := h
  unfold match4 at h
  split at h
  · exact Option.noConfusion h
  · next sk hk =>
      dsimp only at h
      split at h
      · next c u2 he =>
          split at h
          · next hce =>
              split at h
              · next h20 =>
                  injection h with h1
                  rw [Prod.mk.injEq] at h1
                  obtain ⟨hcap, hr⟩ := h1
                  obtain ⟨P, hsP, hPform⟩ := match4key_decomp hk
                  have hlenP : s.length - sk.length = P.length := by
                    rw [hsP]
                    simp
                  have hcapP : cap = P := by
                    rw [← hcap, hlenP, hsP]
                    exact List.take_left' rfl
                  refine ⟨sk, ?_, ?_, ?_, ?_, ?_⟩
                  · rw [hcapP]
                    exact hsP
                  · rw [hcapP]
                    exact hPform
                  · have h4 := m4run_true_of_some h0
                    rw [m4key_eq s, hk] at h4
                    exact h4
                  · cases sk with
                    | nil => rfl
                    | cons d sk2 =>
                        by_cases hws : isWS d
                        · exact eatWdash_fst_neg d sk2 (ws_not_wdash d hws)
                        · have hstop : eatWS (d :: sk2) = d :: sk2 :=
                            eatWS_cons_neg hws
                          rw [hstop] at he
                          injection he with hdc htl
                          refine eatWdash_fst_neg d sk2 ?_
                          rw [hdc]
                          simp only [Bool.or_eq_true, decide_eq_true_eq] at hce
                          rcases hce with h1 | h1 <;> rw [h1] <;> decide
                  · have hrU : r = (match (eatWdash (match eatWS u2 with
                        | q :: r2 => if q = '"' || q = '\'' then r2 else eatWS u2
                        | [] => ([] : Str))).2 with
                      | q2 :: r2 => if q2 = '"' || q2 = '\'' then r2
                          else (eatWdash (match eatWS u2 with
                            | q :: r2 => if q = '"' || q = '\'' then r2
                                else eatWS u2
                            | [] => ([] : Str))).2
                      | [] => ([] : Str)) := by
                      rw [← hr]
                    have hL1 : r.length ≤ ((eatWdash (match eatWS u2 with
                        | q :: r2 => if q = '"' || q = '\'' then r2 else eatWS u2
                        | [] => ([] : Str))).2).length := by
                      rw [hrU]
                      exact strip_quote_len _
                    have hL2 : ((eatWdash (match eatWS u2 with
                        | q :: r2 => if q = '"' || q = '\'' then r2 else eatWS u2
                        | [] => ([] : Str))).2).length ≤ (match eatWS u2 with
                        | q :: r2 => if q = '"' || q = '\'' then r2 else eatWS u2
                        | [] => ([] : Str)).length := len_eatWdash _
                    have hL3 : (match eatWS u2 with
                        | q :: r2 => if q = '"' || q = '\'' then r2 else eatWS u2
                        | [] => ([] : Str)).length ≤ (eatWS u2).length :=
                      strip_quote_len (eatWS u2)
                    have hL4 := len_eatWS u2
                    have hchain : r.length ≤ u2.length :=
                      le_trans hL1 (le_trans hL2 (le_trans hL3 hL4))
                    have hL5 : u2.length + 1 ≤ sk.length := by
                      have hx := len_eatWS sk
                      rw [he] at hx
                      simpa using hx
                    have hL6 : sk.length ≤ s.length := by
                      rw [hsP]
                      simp
                    omega
              · exact Option.noConfusion h
          · exact Option.noConfusion h
      · exact Option.noConfusion h

/-- An API-key match consumes at least one character. -/
theorem match4_some_length {s cap r : Str} (h : match4 s = some (cap, r)) :
    r.length < s.length := by
  obtain ⟨sk, _, _, _, _, hlen⟩ := match4_decomp h
  exact hlen

/-- No suffix of the `api` literal starts with a colon. -/
theorem api_drop_no_colon : ∀ k : Nat,
    ¬ ((("api").data : Str).drop k).head? = some ':' := by
  intro k h
  by_cases hk : k < 3
  · interval_cases k <;> exact absurd h (by decide)
  · have h3 : (("api").data : Str).length = 3 := by decide
    have hle : (("api").data : Str).length ≤ k := by omega
    rw [List.drop_eq_nil_of_le hle] at h
    exact Option.noConfusion h

/-- No suffix of the `key` literal starts with a colon. -/
theorem key_drop_no_colon : ∀ k : Nat,
    ¬ ((("key").data : Str).drop k).head? = some ':' := by
  intro k h
  by_cases hk : k < 3
  · interval_cases k <;> exact absurd h (by decide)
  · have h3 : (("key").data : Str).length = 3 := by decide
    have hle : (("key").data : Str).length ≤ k := by omega
    rw [List.drop_eq_nil_of_le hle] at h
    exact Option.noConfusion h

/-- The `sub4` scan does not depend on the fuel once it covers the
length. -/
theorem sub4go_irrel :
    ∀ (fuel fuel' : Nat) (s : Str), s.length ≤ fuel → s.length ≤ fuel' →
      sub4go fuel s = sub4go fuel' s := by
  intro fuel
  induction fuel using Nat.strong_induction_on with
  | _ fuel ih =>
    intro fuel' s h h'
    cases s with
    | nil => cases fuel <;> cases fuel' <;> rfl
    | cons c t =>
        cases fuel with
        | zero => simp at h
        | succ f =>
            cases fuel' with
            | zero => simp at h'
            | succ f' =>
                show (match match4 (c :: t) with
                      | some (cap, rest) => repl4 cap ++ sub4go f rest
                      | none => c :: sub4go f t)
                    = (match match4 (c :: t) with
                      | some (cap, rest) => repl4 cap ++ sub4go f' rest
                      | none => c :: sub4go f' t)
                cases hm : match4 (c :: t) with
                | some pr =>
                    obtain ⟨cap, rest⟩ := pr
                    have hlt := match4_some_length hm
                    have hr : rest.length ≤ f ∧ rest.length ≤ f' := by
                      simp at h h' hlt
                      omega
                    show repl4 cap ++ sub4go f rest = repl4 cap ++ sub4go f' rest
                    rw [ih f (Nat.lt_succ_self f) f' rest hr.1 hr.2]
                | none =>
                    show c :: sub4go f t = c :: sub4go f' t
                    rw [ih f (Nat.lt_succ_self f) f' t (by simp at h ⊢; omega)
                      (by simp at h' ⊢; omega)]

/-- Unfolding of `sub4` at a match. -/
theorem sub4_eq_match {s cap r : Str} (hm : match4 s = some (cap, r)) :
    sub4 s = repl4 cap ++ sub4 r := by
  cases s with
  | nil =>
      exact Option.noConfusion
        (show (none : Option (Str × Str)) = some (cap, r) from hm)
  | cons c t =>
      show (match match4 (c :: t) with
            | some (cap, rest) => repl4 cap ++ sub4go t.length rest
            | none => c :: sub4go t.length t) = repl4 cap ++ sub4 r
      rw [hm]
      show repl4 cap ++ sub4go t.length r = _
      rw [sub4go_irrel t.length r.length r
        (by have := match4_some_length hm; simp at this; omega) le_rfl]
      rfl

/-- Unfolding of `sub4` at a non-match. -/
theorem sub4_eq_nomatch {c : Char} {t : Str} (hm : match4 (c :: t) = none) :
    sub4 (c :: t) = c :: sub4 t := by
  show (match match4 (c :: t) with
        | some (cap, rest) => repl4 cap ++ sub4go t.length rest
        | none => c :: sub4go t.length t) = c :: sub4 t
  rw [hm]
  rfl

/-- `sub4` realizes the edit relation. -/
theorem rel4_sub4 : ∀ s : Str, Rel4 s (sub4 s) := by
  have main : ∀ (n : Nat) (s : Str), s.length ≤ n → Rel4 s (sub4 s) := by
    intro n
    induction n with
    | zero =>
        intro s h
        have hnil : s = [] := List.eq_nil_of_length_eq_zero (Nat.le_zero.mp h)
        subst hnil
        exact Rel4.nil
    | succ m ih =>
        intro s h
        cases s with
        | nil => exact Rel4.nil
        | cons c t =>
            cases hm : match4 (c :: t) with
            | some pr =>
                obtain ⟨cap, rest⟩ := pr
                rw [sub4_eq_match hm]
                refine Rel4.repl hm (ih rest ?_)
                have := match4_some_length hm
                simp at h this
                omega
            | none =>
                rw [sub4_eq_nomatch hm]
                refine Rel4.skip c (ih t ?_)
                simp at h
                omega
  exact fun s => main s.length s le_rfl

/-- Rejection of the API-key automaton is preserved along a common prefix
whenever it is preserved at the boundary. -/
theorem m4run_boundary : ∀ (A : Str) (σ : St4) {x y : Str}, Good4 σ →
    (∀ τ : St4, Good4 τ → m4run τ x = false → m4run τ y = false) →
    m4run σ (A ++ x) = false → m4run σ (A ++ y) = false := by
  intro A
  induction A with
  | nil =>
      intro σ x y hσ hbase h
      exact hbase σ hσ h
  | cons c A' ih =>
      intro σ x y hσ hbase h
      rw [List.cons_append] at h ⊢
      cases σ with
      | api L =>
          cases L with
          | nil => exact m4run_api_nil_cons c (A' ++ y)
          | cons d L' =>
              rw [m4run_api_cons_cons] at h ⊢
              by_cases hcd : lowC c = d
              · rw [if_pos hcd] at h ⊢
                obtain ⟨k, hk⟩ := hσ
                have hGL' : Good4 (St4.api L') := by
                  refine ⟨k + 1, ?_⟩
                  rw [← List.drop_drop, ← hk]
                  rfl
                cases L' with
                | nil => exact ih .sep trivial hbase h
                | cons e L2 => exact ih (.api (e :: L2)) hGL' hbase h
              · rw [if_neg hcd]
      | sep =>
          rw [m4run_sep_cons] at h ⊢
          by_cases hsep : (c = '_' || c = '-' : Bool) = true
          · rw [if_pos hsep] at h ⊢
            exact ih (.key3 (("key").data)) ⟨0, rfl⟩ hbase h
          · rw [if_neg hsep] at h ⊢
            by_cases hck : lowC c = 'k'
            · rw [if_pos hck] at h ⊢
              exact ih (.key3 (("ey").data)) ⟨1, by decide⟩ hbase h
            · rw [if_neg hck]
      | key3 L =>
          cases L with
          | nil => rfl
          | cons d L' =>
              rw [m4run_key3_cons_cons] at h ⊢
              by_cases hcd : lowC c = d
              · rw [if_pos hcd] at h ⊢
                obtain ⟨k, hk⟩ := hσ
                have hGL' : Good4 (St4.key3 L') := by
                  refine ⟨k + 1, ?_⟩
                  rw [← List.drop_drop, ← hk]
                  rfl
                cases L' with
                | nil => exact ih .wsSep trivial hbase h
                | cons e L2 => exact ih (.key3 (e :: L2)) hGL' hbase h
              · rw [if_neg hcd]
      | wsSep =>
          rw [m4run_wsSep_cons] at h ⊢
          by_cases hws : isWS c
          · rw [if_pos hws] at h ⊢
            exact ih .wsSep trivial hbase h
          · rw [if_neg hws] at h ⊢
            by_cases hce : (c = ':' || c = '=' : Bool) = true
            · rw [if_pos hce] at h ⊢
              exact ih .wsVal trivial hbase h
            · rw [if_neg hce]
      | wsVal =>
          rw [m4run_wsVal_cons] at h ⊢
          by_cases hws : isWS c
          · rw [if_pos hws] at h ⊢
            exact ih .wsVal trivial hbase h
          · rw [if_neg hws] at h ⊢
            by_cases hq : (c = '"' || c = '\'' : Bool) = true
            · rw [if_pos hq] at h ⊢
              exact ih (.run 0) trivial hbase h
            · rw [if_neg hq] at h ⊢
              by_cases hwd : isWdash c
              · rw [if_pos hwd] at h ⊢
                exact ih (.run 1) trivial hbase h
              · rw [if_neg hwd]
      | run n =>
          rw [m4run_run_cons] at h ⊢
          by_cases hwd : isWdash c
          · rw [if_pos hwd] at h ⊢
            exact ih (.run (n + 1)) trivial hbase h
          · rw [if_neg hwd] at h ⊢
            exact h

/-- Rejection of the API-key automaton from any reachable position is
preserved by one substitution edit. -/
theorem sim4 {t u : Str} (rel : Rel4 t u) :
    ∀ σ : St4, Good4 σ → m4run σ t = false → m4run σ u = false := by
  induction rel with
  | nil =>
      intro σ _ h
      exact h
  | skip c r ih =>
      intro σ hσ h
      exact m4run_boundary [c] σ hσ ih h
  | repl hm r ih =>
      next s cap rr u0 =>
      intro σ hσ h
      obtain ⟨sk, hs, hcapf, hskT, hwd0, _⟩ := match4_decomp hm
      have hrepl : (repl4 cap ++ u0 : Str) = cap ++ (mid4 ++ u0) := by
        show (cap ++ mid4) ++ u0 = _
        rw [List.append_assoc]
      rw [hrepl]
      rw [hs] at h
      refine m4run_boundary cap σ hσ ?_ h
      intro τ hτ hn
      have hmid : mid4 = ':' :: (' ' :: (("***MASKED***").data)) := by decide
      cases τ with
      | api L =>
          obtain ⟨k, hk⟩ := hτ
          cases L with
          | nil =>
              rw [hmid, List.cons_append]
              exact m4run_api_nil_cons ':' _
          | cons d L' =>
              have hhead : ((("api").data : Str).drop k).head? = some d := by
                rw [← hk]
                rfl
              have hd : ¬ lowC ':' = d := by
                intro hcontra
                rw [← hcontra, show lowC ':' = ':' from by decide] at hhead
                exact api_drop_no_colon k hhead
              rw [hmid, List.cons_append, m4run_api_cons_cons, if_neg hd]
      | sep =>
          have h1 : ¬ ((':' : Char) = '_' || (':' : Char) = '-' : Bool) = true := by
            decide
          have h2 : ¬ lowC ':' = 'k' := by decide
          rw [hmid, List.cons_append, m4run_sep_cons, if_neg h1, if_neg h2]
      | key3 L =>
          obtain ⟨k, hk⟩ := hτ
          cases L with
          | nil =>
              rw [hmid, List.cons_append]
              rfl
          | cons d L' =>
              have hhead : ((("key").data : Str).drop k).head? = some d := by
                rw [← hk]
                rfl
              have hd : ¬ lowC ':' = d := by
                intro hcontra
                rw [← hcontra, show lowC ':' = ':' from by decide] at hhead
                exact key_drop_no_colon k hhead
              rw [hmid, List.cons_append, m4run_key3_cons_cons, if_neg hd]
      | wsSep =>
          exfalso
          rw [hskT] at hn
          exact Bool.noConfusion hn
      | wsVal =>
          have h1 : ¬ isWS ':' = true := by decide
          have h2 : ¬ ((':' : Char) = '"' || (':' : Char) = '\'' : Bool) = true := by
            decide
          have h3 : ¬ isWdash ':' = true := by decide
          rw [hmid, List.cons_append, m4run_wsVal_cons, if_neg h1, if_neg h2,
            if_neg h3]
      | run n =>
          rw [m4run_run_eq sk n, hwd0, Nat.add_zero] at hn
          rw [hmid, List.cons_append, m4run_run_eq,
            eatWdash_fst_neg ':' _ (by decide), Nat.add_zero]
          exact hn

/-- No API-key match can start at a character that does not lower to `a`. -/
theorem match4_head_na {d : Char} {w : Str} (h : ¬ lowC d = 'a') :
    match4 (d :: w) = none := by
  apply match4_none_of_false
  rw [show (("api").data : Str) = 'a' :: 'p' :: 'i' :: [] from by decide,
    m4run_api_cons_cons, if_neg h]

/-- No API-key match can start at an `a` that is not followed by a `p`. -/
theorem match4_head_ap {d e : Char} {w : Str} (h1 : lowC d = 'a')
    (h2 : ¬ lowC e = 'p') : match4 (d :: e :: w) = none := by
  apply match4_none_of_false
  rw [show (("api").data : Str) = 'a' :: 'p' :: 'i' :: [] from by decide,
    m4run_api_cons_cons, if_pos h1]
  dsimp only
  rw [m4run_api_cons_cons, if_neg h2]

/-- After the replacement's `: ` the asterisks stop the value pattern. -/
theorem m4run_wsSep_mid4 (z : Str) : m4run .wsSep (mid4 ++ z) = false := by
  have h1 : ¬ isWS ':' = true := by decide
  have h2 : ((':' : Char) = ':' || (':' : Char) = '=' : Bool) = true := by decide
  have h3 : isWS ' ' = true := by decide
  have h4 : ¬ isWS '*' = true := by decide
  have h5 : ¬ (('*' : Char) = '"' || ('*' : Char) = '\'' : Bool) = true := by
    decide
  have h6 : ¬ isWdash '*' = true := by decide
  rw [show mid4 = ':' :: (' ' :: (("***MASKED***").data)) from by decide,
    List.cons_append, m4run_wsSep_cons, if_neg h1, if_pos h2,
    List.cons_append, m4run_wsVal_cons, if_pos h3,
    show (("***MASKED***").data : Str) = '*' :: (("**MASKED***").data)
      from by decide,
    List.cons_append, m4run_wsVal_cons, if_neg h4, if_neg h5, if_neg h6]

/-- A captured key followed by the masked replacement tail does not match
again at its head: the `*` after `: ` fails the value pattern. -/
theorem match4_capform_mid4 : ∀ (cap z : Str), CapForm cap →
    match4 (cap ++ (mid4 ++ z)) = none := by
  intro cap z hc
  obtain ⟨p1, m, p2, hcap, hp1, hp2, hm⟩ := hc
  subst hcap
  cases p1 with
  | nil => simp [pyLower] at hp1
  | cons a1 p1' =>
    cases p1' with
    | nil => simp [pyLower] at hp1
    | cons a2 p1'' =>
      cases p1'' with
      | nil => simp [pyLower] at hp1
      | cons a3 p1''' =>
        cases p1''' with
        | cons a4 p4 => simp [pyLower] at hp1
        | nil =>
          cases p2 with
          | nil => simp [pyLower] at hp2
          | cons k1 p2' =>
            cases p2' with
            | nil => simp [pyLower] at hp2
            | cons k2 p2'' =>
              cases p2'' with
              | nil => simp [pyLower] at hp2
              | cons k3 p2''' =>
                cases p2''' with
                | cons k4 p5 => simp [pyLower] at hp2
                | nil =>
                  simp only [pyLower, List.map_cons, List.map_nil,
                    List.cons.injEq, and_true] at hp1 hp2
                  obtain ⟨ha1, ha2, ha3⟩ := hp1
                  obtain ⟨hk1, hk2, hk3⟩ := hp2
                  apply match4_none_of_false
                  simp only [List.cons_append, List.nil_append,
                    List.append_assoc]
                  rw [m4run_api_cons_cons, if_pos ha1]
                  dsimp only
                  rw [m4run_api_cons_cons, if_pos ha2]
                  dsimp only
                  rw [m4run_api_cons_cons, if_pos ha3]
                  dsimp only
                  rcases hm with hm0 | ⟨c, hmc, hcsep⟩
                  · subst hm0
                    rw [List.nil_append, m4run_sep_cons]
                    have hno : ¬ (k1 = '_' || k1 = '-' : Bool) = true := by
                      intro hcontra
                      simp only [Bool.or_eq_true, decide_eq_true_eq] at hcontra
                      rcases hcontra with hx | hx <;> rw [hx] at hk1 <;>
                        exact absurd hk1 (by decide)
                    rw [if_neg hno, if_pos hk1,
                      show (("ey").data : Str) = 'e' :: 'y' :: []
                        from by decide,
                      m4run_key3_cons_cons, if_pos hk2]
                    dsimp only
                    rw [m4run_key3_cons_cons, if_pos hk3]
                    dsimp only
                    exact m4run_wsSep_mid4 z
                  · subst hmc
                    simp only [List.cons_append, List.nil_append]
                    rw [m4run_sep_cons, if_pos hcsep,
                      show (("key").data : Str) = 'k' :: 'e' :: 'y' :: []
                        from by decide,
                      m4run_key3_cons_cons, if_pos hk1]
                    dsimp only
                    rw [m4run_key3_cons_cons, if_pos hk2]
                    dsimp only
                    rw [m4run_key3_cons_cons, if_pos hk3]
                    dsimp only
                    exact m4run_wsSep_mid4 z

/-- No API-key match starts anywhere inside the replaced block, whatever
follows it. -/
theorem repl4_suffix_none : ∀ (cap : Str), CapForm cap →
    ∀ (i : Nat) (z : Str), i < (repl4 cap).length →
      match4 ((repl4 cap).drop i ++ z) = none := by
  intro cap hc
  have hc0 := hc
  obtain ⟨p1, m, p2, hcap, hp1, hp2, hm⟩ := hc
  subst hcap
  cases p1 with
  | nil => simp [pyLower] at hp1
  | cons a1 p1' =>
    cases p1' with
    | nil => simp [pyLower] at hp1
    | cons a2 p1'' =>
      cases p1'' with
      | nil => simp [pyLower] at hp1
      | cons a3 p1''' =>
        cases p1''' with
        | cons a4 p4 => simp [pyLower] at hp1
        | nil =>
          cases p2 with
          | nil => simp [pyLower] at hp2
          | cons k1 p2' =>
            cases p2' with
            | nil => simp [pyLower] at hp2
            | cons k2 p2'' =>
              cases p2'' with
              | nil => simp [pyLower] at hp2
              | cons k3 p2''' =>
                cases p2''' with
                | cons k4 p5 => simp [pyLower] at hp2
                | nil =>
                  simp only [pyLower, List.map_cons, List.map_nil,
                    List.cons.injEq, and_true] at hp1 hp2
                  obtain ⟨ha1, ha2, ha3⟩ := hp1
                  obtain ⟨hk1, hk2, hk3⟩ := hp2
                  rcases hm with hm0 | ⟨c, hmc, hcsep⟩
                  · subst hm0
                    intro i z hi
                    have hform : repl4 ((a1 :: a2 :: a3 :: [] : Str) ++ []
                          ++ (k1 :: k2 :: k3 :: []))
                        = a1 :: a2 :: a3 :: k1 :: k2 :: k3 :: ':' :: ' '
                          :: '*' :: '*' :: '*' :: 'M' :: 'A' :: 'S' :: 'K'
                          :: 'E' :: 'D' :: '*' :: '*' :: '*' :: ([] : Str) := by
                      show ((a1 :: a2 :: a3 :: [] : Str) ++ []
                          ++ (k1 :: k2 :: k3 :: [])) ++ mid4 = _
                      rw [show mid4 = ':' :: ' ' :: '*' :: '*' :: '*' :: 'M'
                          :: 'A' :: 'S' :: 'K' :: 'E' :: 'D' :: '*' :: '*'
                          :: '*' :: ([] : Str) from by decide]
                      simp
                    rw [hform] at hi ⊢
                    have hi20 : i < 20 := by simpa using hi
                    interval_cases i
                    · exact match4_capform_mid4 _ z hc0
                    · exact match4_head_na (by rw [ha2]; decide)
                    · exact match4_head_na (by rw [ha3]; decide)
                    · exact match4_head_na (by rw [hk1]; decide)
                    · exact match4_head_na (by rw [hk2]; decide)
                    · exact match4_head_na (by rw [hk3]; decide)
                    · exact match4_head_na (by decide)
                    · exact match4_head_na (by decide)
                    · exact match4_head_na (by decide)
                    · exact match4_head_na (by decide)
                    · exact match4_head_na (by decide)
                    · exact match4_head_na (by decide)
                    · exact match4_head_ap (by decide) (by decide)
                    · exact match4_head_na (by decide)
                    · exact match4_head_na (by decide)
                    · exact match4_head_na (by decide)
                    · exact match4_head_na (by decide)
                    · exact match4_head_na (by decide)
                    · exact match4_head_na (by decide)
                    · exact match4_head_na (by decide)
                  · subst hmc
                    have hcna : ¬ lowC c = 'a' := by
                      simp only [Bool.or_eq_true, decide_eq_true_eq] at hcsep
                      rcases hcsep with hx | hx <;> subst hx <;> decide
                    intro i z hi
                    have hform : repl4 ((a1 :: a2 :: a3 :: [] : Str)
                          ++ (c :: []) ++ (k1 :: k2 :: k3 :: []))
                        = a1 :: a2 :: a3 :: c :: k1 :: k2 :: k3 :: ':' :: ' '
                          :: '*' :: '*' :: '*' :: 'M' :: 'A' :: 'S' :: 'K'
                          :: 'E' :: 'D' :: '*' :: '*' :: '*' :: ([] : Str) := by
                      show ((a1 :: a2 :: a3 :: [] : Str) ++ (c :: [])
                          ++ (k1 :: k2 :: k3 :: [])) ++ mid4 = _
                      rw [show mid4 = ':' :: ' ' :: '*' :: '*' :: '*' :: 'M'
                          :: 'A' :: 'S' :: 'K' :: 'E' :: 'D' :: '*' :: '*'
                          :: '*' :: ([] : Str) from by decide]
                      simp
                    rw [hform] at hi ⊢
                    have hi21 : i < 21 := by simpa using hi
                    interval_cases i
                    · exact match4_capform_mid4 _ z hc0
                    · exact match4_head_na (by rw [ha2]; decide)
                    · exact match4_head_na (by rw [ha3]; decide)
                    · exact match4_head_na hcna
                    · exact match4_head_na (by rw [hk1]; decide)
                    · exact match4_head_na (by rw [hk2]; decide)
                    · exact match4_head_na (by rw [hk3]; decide)
                    · exact match4_head_na (by decide)
                    · exact match4_head_na (by decide)
                    · exact match4_head_na (by decide)
                    · exact match4_head_na (by decide)
                    · exact match4_head_na (by decide)
                    · exact match4_head_na (by decide)
                    · exact match4_head_ap (by decide) (by decide)
                    · exact match4_head_na (by decide)
                    · exact match4_head_na (by decide)
                    · exact match4_head_na (by decide)
                    · exact match4_head_na (by decide)
                    · exact match4_head_na (by decide)
                    · exact match4_head_na (by decide)
                    · exact match4_head_na (by decide)

/-- The `sub4` scan copies a block in which no match can start. -/
theorem sub4_skip_block : ∀ (B z : Str),
    (∀ (i : Nat) (z' : Str), i < B.length → match4 (B.drop i ++ z') = none) →
    sub4 (B ++ z) = B ++ sub4 z := by
  intro B
  induction B with
  | nil =>
      intro z h
      rfl
  | cons b B' ih =>
      intro z h
      have h0 : match4 (b :: (B' ++ z)) = none := h 0 z (by simp)
      rw [List.cons_append, sub4_eq_nomatch h0,
        ih z (fun i z' hi => h (i + 1) z' (by simp; omega))]
      rfl

/-- The API-key substitution pass is idempotent. -/
theorem sub4_idem : ∀ s : Str, sub4 (sub4 s) = sub4 s := by
  have main : ∀ (n : Nat) (s : Str), s.length ≤ n → sub4 (sub4 s) = sub4 s := by
    intro n
    induction n with
    | zero =>
        intro s h
        have hnil : s = [] := List.eq_nil_of_length_eq_zero (Nat.le_zero.mp h)
        subst hnil
        rfl
    | succ m ih =>
        intro s h
        cases s with
        | nil => rfl
        | cons c t =>
            cases hm : match4 (c :: t) with
            | some pr =>
                obtain ⟨cap, rest⟩ := pr
                have hlen : rest.length ≤ m := by
                  have := match4_some_length hm
                  simp at h this
                  omega
                obtain ⟨sk, hs, hcapf, _, _, _⟩ := match4_decomp hm
                rw [sub4_eq_match hm,
                  sub4_skip_block (repl4 cap) (sub4 rest)
                    (repl4_suffix_none cap hcapf),
                  ih rest hlen]
            | none =>
                have hlen : t.length ≤ m := by
                  simp at h
                  omega
                have hm2 : match4 (c :: sub4 t) = none := by
                  apply match4_none_of_false
                  have hf := (match4_none_iff (c :: t)).mp hm
                  exact sim4 (Rel4.skip c (rel4_sub4 t))
                    (St4.api (("api").data)) ⟨0, rfl⟩ hf
                rw [sub4_eq_nomatch hm, sub4_eq_nomatch hm2, ih t hlen]
  exact fun s => main s.length s le_rfl

/-- Validation of the embedded substitutions against Python `re.sub`
behaviour on concrete inputs. -/
theorem sub_embedding_checks :
    replaceAll ("ab").data ("X").data ("zababy").data = ("zXXy").data
    ∧ sub3 ("x \"accessKey\" : \"s3cr3t\" y").data
        = ("x \"accessKey\": \"***MASKED***\" y").data
    ∧ sub4 ("api_key = abcdefghij0123456789XY tail").data
        = ("api_key: ***MASKED*** tail").data
    ∧ sub4 ("APIKEY: 'abcdefghij0123456789'").data
        = ("APIKEY: ***MASKED***").data
    ∧ sub4 ("apikey: short").data = ("apikey: short").data := by
  refine ⟨by decide, by decide, by decide, by decide, by decide⟩

/-- C9 counterexample: masking is not idempotent.  On `x9` the API-key
pattern's optional trailing quote consumes the opening quote of the
already-normalized accessKey pair, and the second application then finds
and rewrites a fresh accessKey match.  (No literal secrets are configured,
so only the two regex passes act.) -/
theorem mask_not_idempotent_cex :
    ¬ mask_sensitive_data cfgLocal (mask_sensitive_data cfgLocal x9)
      = mask_sensitive_data cfgLocal x9 := by decide

/-- C9 (amended): each regex masking pass is individually idempotent —
re-applying the accessKey substitution or the API-key substitution to its
own output changes nothing; the redaction text itself can match neither
pattern again. -/
theorem mask_regex_passes_idempotent :
    (∀ s : Str, sub3 (sub3 s) = sub3 s) ∧ (∀ s : Str, sub4 (sub4 s) = sub4 s) :=
  ⟨sub3_idem, sub4_idem⟩
